import Mathlib

/-!
# Audio visualizer: the `Visualizer` class of `visualizer.cpp`

A shallow embedding of `Visualizer::Visualizer`, `Visualizer::init_successful`,
`Visualizer::copy_data`, `Visualizer::handle_event`, `Visualizer::update` and
`Visualizer::draw_wave`, followed by theorems about them.

Modelling conventions.

* An `int` is an integer in `[-2 ^ 31, 2 ^ 31)`. The result of an `int` addition,
  subtraction or multiplication is reduced modulo `2 ^ 32` into this range
  (`wrap32`), which is what the compiled program computes.
* A `float` is a binary32 value (`Float32`): a finite rational, an infinity or
  a NaN; the sign of a zero is not kept, since it does not reach the result of
  an `(int)` cast. Each conversion from `int`, each product and each sum is
  rounded to the nearest binary32 value, ties to even (`round32`).
* The `(int)` cast of a `float` truncates toward zero (`truncToInt`); it is
  undefined for a NaN, an infinity and a value whose truncation is not an `int`.
* The `double` division and `ceil` of the step are exact for every `int` width
  and every block size, so the step is the exact ceiling (`wave_step`).
* Calls into SDL and the critical section of `draw_wave` on
  `packet_buffer_mutex` are recorded, in program order, as a list of `Action`s.
  Each method runs as one sequential step; `copy_data` is one atomic update of
  `packet_buffer`.
* The SDL event queue read by `SDL_PollEvent` is a finite list of pending events.
* Other behaviour that C++ leaves undefined is a fault value (`none`, or a
  `DrawFault`) instead of a result.
* The arguments of the methods are integers; the program passes values in the
  `int` range, and a theorem depends on this only where it says so.
-/

namespace AudioVisualizer

/-! ## Machine arithmetic -/

/-- Reduction of an integer modulo `2 ^ 32` into the `int` range
`[-2147483648, 2147483647]`. -/
def wrap32 (z : Int) : Int :=
  (z + 2147483648) % 4294967296 - 2147483648

/-- A binary32 `float` value. -/
inductive Float32 where
  | finite (value : ℚ)
  | infinite (negative : Bool)
  | nan
deriving DecidableEq, Repr

/-- Rounding of a rational to the nearest integer, ties to the even one. -/
def roundHalfEven (x : ℚ) : Int :=
  if x - ⌊x⌋ < 1 / 2 then ⌊x⌋
  else if 1 / 2 < x - ⌊x⌋ then ⌊x⌋ + 1
  else if ⌊x⌋ % 2 = 0 then ⌊x⌋ else ⌊x⌋ + 1

/-- The spacing of the binary32 values around `q`: `2 ^ (e - 23)` for
`2 ^ e ≤ |q| < 2 ^ (e + 1)`, with `e` at least `-126` (subnormal range). -/
def ulp32 (q : ℚ) : ℚ :=
  (2 : ℚ) ^ (max (Int.log 2 |q|) (-126) - 23)

/-- Rounding of an exact result to binary32: nearest value, ties to even,
infinite when the rounded magnitude reaches `2 ^ 128`. -/
def round32 (q : ℚ) : Float32 :=
  if (2 : ℚ) ^ 128 ≤ |(roundHalfEven (q / ulp32 q) : ℚ) * ulp32 q| then
    .infinite (decide (q < 0))
  else
    .finite (roundHalfEven (q / ulp32 q) * ulp32 q)

/-- The conversion `(float)n` of an `int`. -/
def Float32.ofInt (n : Int) : Float32 := round32 n

/-- The `float` product. -/
def Float32.mul : Float32 → Float32 → Float32
  | .finite a, .finite b => round32 (a * b)
  | .finite a, .infinite n => if a = 0 then .nan else .infinite (xor (decide (a < 0)) n)
  | .infinite n, .finite b => if b = 0 then .nan else .infinite (xor n (decide (b < 0)))
  | .infinite n, .infinite m => .infinite (xor n m)
  | _, _ => .nan

/-- The `float` sum. -/
def Float32.add : Float32 → Float32 → Float32
  | .finite a, .finite b => round32 (a + b)
  | .finite _, .infinite n => .infinite n
  | .infinite n, .finite _ => .infinite n
  | .infinite n, .infinite m => if n = m then .infinite n else .nan
  | _, _ => .nan

/-- The `(int)` cast of a floating value: truncation toward zero. -/
def truncToInt (q : ℚ) : Int :=
  if 0 ≤ q then ⌊q⌋ else ⌈q⌉

/-- The `(int)` cast of a `float`; `none` where the cast is undefined. -/
def Float32.toInt : Float32 → Option Int
  | .finite q =>
    if -2147483648 ≤ truncToInt q ∧ truncToInt q ≤ 2147483647 then some (truncToInt q) else none
  | _ => none

/-! ## Data model -/

/-- One `float` amplitude value. -/
abbrev Sample := Float32

/-- The `SDL_Point` of SDL: a pixel position. -/
structure SDL_Point where
  x : Int
  y : Int
deriving DecidableEq, Repr

/-- The `SDL_Color` of SDL. -/
structure SDL_Color where
  r : Nat
  g : Nat
  b : Nat
  a : Nat
deriving DecidableEq, Repr

/-- The values of `e.window.event` that `handle_event` distinguishes; every
other window event id is `OTHER`. -/
inductive SDL_WindowEventID where
  | SIZE_CHANGED
  | EXPOSED
  | MINIMIZED
  | MAXIMIZED
  | RESTORED
  | OTHER (id : Nat)
deriving DecidableEq, Repr

/-- The values of `e.key.keysym.sym`: `SDLK_RETURN` or any other key. -/
inductive SDL_Keycode where
  | RETURN
  | OTHER (sym : Nat)
deriving DecidableEq, Repr

/-- The `SDL_Event` union, by its `type` tag: `SDL_QUIT`, `SDL_WINDOWEVENT`
(with `window.event`, `window.data1`, `window.data2`), `SDL_KEYDOWN` (with
`key.keysym.sym`), or an event of any other type. -/
inductive SDL_Event where
  | QUIT
  | WINDOWEVENT (event : SDL_WindowEventID) (data1 data2 : Int)
  | KEYDOWN (sym : SDL_Keycode)
  | OTHER (type : Nat)
deriving DecidableEq, Repr

/-- What the consumer thread does to the outside world: the SDL calls it issues
and its critical section on `packet_buffer_mutex`. -/
inductive Action where
  | SetRenderDrawColor (r g b a : Nat)
  | RenderClear
  | RenderPresent
  | RenderDrawLines (points : List SDL_Point)
  | SetWindowFullscreen (flag : Bool)
  | lockPacketBuffer
  | unlockPacketBuffer
deriving DecidableEq, Repr

/-- The data members of `Visualizer` that the modelled methods read or write,
with the initial values of `visualizer.h`. -/
structure Visualizer where
  window_width : Int := 1000
  window_height : Int := 600
  mFullScreen : Bool := false
  mMinimized : Bool := false
  packet_buffer : List Sample := []
deriving DecidableEq, Repr

/-- The state of a freshly constructed `Visualizer`. -/
def Visualizer.initial : Visualizer := {}

/-- What can go wrong inside `draw_wave`. -/
inductive DrawFault where
  /-- Evaluation of `*amplitude` with `amplitude` at or beyond `packet_buffer.end()`. -/
  | readPastEnd
  /-- An `(int)` cast of a NaN, an infinity or a value outside the `int` range. -/
  | castUndefined
  /-- Evaluation of `points[0]` on an empty vector. -/
  | emptyPoints
  /-- The iteration budget given to the loop model was used up. -/
  | outOfFuel
deriving DecidableEq, Repr

/-! ## `Visualizer::copy_data` -/

/-- `Visualizer::copy_data(float* data, int channels, int frames)`.

`data` is `none` for a null pointer and otherwise the memory behind the pointer,
indexed by offset. The count `channels * frames` is an `int` product. The range
constructor `packet(data, data + channels * frames)` copies the values at
offsets `0 .. channels * frames - 1`; a negative count is an invalid range,
which is undefined behaviour (`none`). -/
def copy_data (self : Visualizer) (data : Option (Nat → Sample)) (channels frames : Int) :
    Option Visualizer :=
  match data with
  | some mem =>
    if 0 ≤ wrap32 (channels * frames) then
      some { self with
        packet_buffer := (List.range (wrap32 (channels * frames)).toNat).map mem }
    else
      none
  | none =>
    -- use an empty vector if there is no data (silence)
    some { self with packet_buffer := [] }

/-- The arguments of one `copy_data` call. -/
structure CopyCall where
  data : Option (Nat → Sample)
  channels : Int
  frames : Int

/-- A sequence of `copy_data` calls made one after the other by the producer. -/
def copy_data_seq (self : Visualizer) : List CopyCall → Option Visualizer
  | [] => some self
  | c :: cs =>
    match copy_data self c.data c.channels c.frames with
    | some next => copy_data_seq next cs
    | none => none

/-! ## `Visualizer::handle_event` -/

/-- `Visualizer::handle_event(const SDL_Event& e)`: the new state and the SDL
calls issued. -/
def handle_event (self : Visualizer) (e : SDL_Event) : Visualizer × List Action :=
  match e with
  | .WINDOWEVENT event data1 data2 =>
    match event with
    | .SIZE_CHANGED =>
      ({ self with window_width := data1, window_height := data2 }, [.RenderPresent])
    | .EXPOSED => (self, [.RenderPresent])
    | .MINIMIZED => ({ self with mMinimized := true }, [])
    | .MAXIMIZED => ({ self with mMinimized := false }, [])
    | .RESTORED => ({ self with mMinimized := false }, [])
    | .OTHER _ => (self, [])
  | .KEYDOWN .RETURN =>
    if self.mFullScreen then
      ({ self with mFullScreen := false }, [.SetWindowFullscreen false])
    else
      ({ self with mFullScreen := true, mMinimized := false }, [.SetWindowFullscreen true])
  | _ => (self, [])

/-- The window state after handling a sequence of events in order. -/
def handle_events (self : Visualizer) : List SDL_Event → Visualizer
  | [] => self
  | e :: es => handle_events (handle_event self e).1 es

/-- The SDL calls issued while handling a sequence of events in order. -/
def handle_events_calls (self : Visualizer) : List SDL_Event → List Action
  | [] => []
  | e :: es => (handle_event self e).2 ++ handle_events_calls (handle_event self e).1 es

/-! ## `Visualizer::draw_wave` -/

/-- The step of `draw_wave`: `(int)ceil((double)length / (double)size)`. -/
def wave_step (length : Int) (size : Nat) : Int :=
  ⌈(length : ℚ) / (size : ℚ)⌉

/-- The row of one point: `(int)(start.y + (*amplitude) * pixel_amplitude)`.
Both `int` operands are converted to `float`, the product and the sum are
`float` operations, and the sum is cast to `int`. -/
@[irreducible]
def wave_row (y : Int) (sample : Sample) (pixel_amplitude : Int) : Option Int :=
  (Float32.add (Float32.ofInt y) (Float32.mul sample (Float32.ofInt pixel_amplitude))).toInt

/-- The loop `for (int i = 0; i < length; i += step)` of `draw_wave`, started at
`i` with the iterator `amplitude` at index `amplitude` and `points` collected so
far. Each iteration pushes one point and advances the iterator by one. The
first argument bounds the number of iterations. -/
def wave_loop (start : SDL_Point) (length pixel_amplitude step : Int)
    (packet_buffer : List Sample) :
    Nat → Int → Nat → List SDL_Point → Except DrawFault (List SDL_Point)
  | 0, i, _, points =>
    if i < length then .error .outOfFuel else .ok points
  | fuel + 1, i, amplitude, points =>
    if i < length then
      match packet_buffer[amplitude]? with
      | none => .error .readPastEnd
      | some sample =>
        match wave_row start.y sample pixel_amplitude with
        | none => .error .castUndefined
        | some y =>
          wave_loop start length pixel_amplitude step packet_buffer fuel (wrap32 (i + step))
            (amplitude + 1) (points ++ [⟨wrap32 (start.x + i), y⟩])
    else
      .ok points

/-- The vector `points` that `draw_wave` builds inside its critical section.
The loop is given one iteration more than the block has samples: each
iteration reads one further sample, so an iteration after the last sample reads
past the end. -/
def wave_points (packet_buffer : List Sample) (start : SDL_Point)
    (length pixel_amplitude : Int) : Except DrawFault (List SDL_Point) :=
  if !packet_buffer.isEmpty then
    -- use smallest possible step so soundwave fills window
    let step := wave_step length packet_buffer.length
    wave_loop start length pixel_amplitude step packet_buffer (packet_buffer.length + 1) 0 0 []
  else
    -- silence
    .ok [⟨start.x, start.y⟩, ⟨wrap32 (wrap32 (start.x + length) - 1), start.y⟩]

/-- `Visualizer::draw_wave(start, length, pixel_amplitude, color)`: the actions
performed, in order. The argument `&points[0]` of `SDL_RenderDrawLines` is
undefined for an empty `points`. -/
def draw_wave (self : Visualizer) (start : SDL_Point) (length pixel_amplitude : Int)
    (color : SDL_Color) : Except DrawFault (List Action) :=
  match wave_points self.packet_buffer start length pixel_amplitude with
  | .error fault => .error fault
  | .ok points =>
    if points.isEmpty then
      .error .emptyPoints
    else
      .ok [.lockPacketBuffer, .unlockPacketBuffer,
        .SetRenderDrawColor color.r color.g color.b color.a, .RenderDrawLines points]

/-! ## `Visualizer::update` -/

/-- The outcome of one `update` call. -/
structure Tick where
  /-- The value `update` returns. -/
  result : Bool
  /-- The `Visualizer` afterwards. -/
  state : Visualizer
  /-- The events still pending in the SDL queue. -/
  pending : List SDL_Event
  /-- The events passed to `handle_event`, in call order. -/
  dispatched : List SDL_Event
  /-- The actions performed, in order. -/
  calls : List Action
deriving DecidableEq, Repr

/-- The event loop of `update`: `while (SDL_PollEvent(&current_event) != 0)`,
over the queue of pending events. `result` is `false` when the loop was left
through `return false`. -/
def poll_loop (self : Visualizer) (dispatched : List SDL_Event) (calls : List Action) :
    List SDL_Event → Tick
  | [] => ⟨true, self, [], dispatched, calls⟩
  | .QUIT :: queue => ⟨false, self, queue, dispatched, calls⟩
  | e :: queue =>
    poll_loop (handle_event self e).1 (dispatched ++ [e])
      (calls ++ (handle_event self e).2) queue

/-- `Visualizer::update()`, run on a `Visualizer` and the queue of pending events. -/
def update (self : Visualizer) (queue : List SDL_Event) : Except DrawFault Tick :=
  let polled := poll_loop self [] [] queue
  if !polled.result then
    .ok polled
  else if polled.state.mMinimized then
    -- Do not render if minimized
    .ok polled
  else
    -- Render visualizer
    match draw_wave polled.state ⟨0, Int.tdiv polled.state.window_height 2⟩
        polled.state.window_width polled.state.window_height ⟨255, 255, 255, 255⟩ with
    | .error fault => .error fault
    | .ok drawn =>
      .ok { polled with
        calls := polled.calls ++ [.SetRenderDrawColor 0 0 0 255, .RenderClear] ++ drawn
          ++ [.RenderPresent] }

/-! ## `Visualizer::Visualizer` and `Visualizer::init_successful` -/

/-- What the four initialisation steps of the constructor report when they are
attempted: `SDL_Init(SDL_INIT_VIDEO) == 0`, `SDL_CreateWindow` returning a
window, `SDL_CreateRenderer` returning a renderer, and
`recorder.init_successful()` of the capture collaborator. -/
structure InitOutcome where
  sdl_init : Bool
  create_window : Bool
  create_renderer : Bool
  recorder_init : Bool
deriving DecidableEq, Repr

/-- The handle members of `Visualizer` that the constructor sets: whether
`window` and `renderer` are non-null and whether `recording_thread` is
joinable, that is, whether the producer thread was started. Their initial
values are `nullptr` and a default-constructed `std::thread`. -/
structure Handles where
  window : Bool := false
  renderer : Bool := false
  recording_thread_joinable : Bool := false
deriving DecidableEq, Repr

/-- `Visualizer::Visualizer()`: the handles after construction. -/
def construct (env : InitOutcome) : Handles :=
  if !env.sdl_init then
    -- Unable to initialize SDL: return
    {}
  else
    let window := env.create_window
    let renderer := if window then env.create_renderer else false
    let recording_thread_joinable := if env.recorder_init then true else false
    { window := window, renderer := renderer,
      recording_thread_joinable := recording_thread_joinable }

/-- `Visualizer::init_successful()`: `renderer && recording_thread.joinable()`. -/
def init_successful (self : Handles) : Bool :=
  self.renderer && self.recording_thread_joinable

/-! ## Auxiliary lemmas -/

/-- A call sequence extended by one call runs the sequence and then the last call. -/
theorem copy_data_seq_append (self : Visualizer) (cs : List CopyCall) (c : CopyCall) :
    copy_data_seq self (cs ++ [c]) =
      (copy_data_seq self cs).bind fun s => copy_data s c.data c.channels c.frames := by
  induction cs generalizing self with
  | nil =>
    simp only [List.nil_append, copy_data_seq, Option.some_bind]
    cases copy_data self c.data c.channels c.frames <;> rfl
  | cons d ds ih =>
    simp only [List.cons_append, copy_data_seq]
    cases copy_data self d.data d.channels d.frames with
    | none => rfl
    | some next => exact ih next

/-- The ceiling of a quotient of integers, with a positive divisor, against an upper bound. -/
theorem ceil_div_le_iff (a b c : Int) (hb : 0 < b) : ⌈(a : ℚ) / (b : ℚ)⌉ ≤ c ↔ a ≤ c * b := by
  have hb' : (0 : ℚ) < (b : ℚ) := by exact_mod_cast hb
  rw [Int.ceil_le, div_le_iff₀ hb']
  exact_mod_cast Iff.rfl

/-- The ceiling of a quotient of integers, with a positive divisor, against a strict lower bound. -/
theorem lt_ceil_div_iff (a b c : Int) (hb : 0 < b) : c < ⌈(a : ℚ) / (b : ℚ)⌉ ↔ c * b < a := by
  have hb' : (0 : ℚ) < (b : ℚ) := by exact_mod_cast hb
  rw [Int.lt_ceil, lt_div_iff₀ hb']
  exact_mod_cast Iff.rfl

/-- The step, with the block size read as an integer. -/
theorem wave_step_eq (length : Int) (size : Nat) :
    wave_step length size = ⌈(length : ℚ) / ((size : Int) : ℚ)⌉ := by
  simp [wave_step]

/-- The step is at least 1 for a width of at least 1 and a non-empty block. -/
theorem wave_step_pos (length : Int) (size : Nat) (hl : 1 ≤ length) (hs : 1 ≤ size) :
    1 ≤ wave_step length size := by
  have hs' : (0 : Int) < (size : Int) := by omega
  have h := (lt_ceil_div_iff length size 0 hs').mpr (by omega)
  rw [wave_step_eq]
  omega

/-- With the step of `draw_wave`, `size` samples reach the width: `length ≤ step * size`. -/
theorem wave_step_mul_ge (length : Int) (size : Nat) (hs : 1 ≤ size) :
    length ≤ wave_step length size * size := by
  have hs' : (0 : Int) < (size : Int) := by omega
  rw [wave_step_eq]
  exact (ceil_div_le_iff length size _ hs').mp le_rfl

/-- The ceiling of a quotient of integers from its two defining bounds. -/
theorem ceil_div_eq_of (a b c : Int) (hb : 0 < b) (h1 : (c - 1) * b < a) (h2 : a ≤ c * b) :
    ⌈(a : ℚ) / (b : ℚ)⌉ = c := by
  have hle := (ceil_div_le_iff a b c hb).mpr h2
  have hlt := (lt_ceil_div_iff a b (c - 1) hb).mpr h1
  omega

/-- The step from its two defining bounds. -/
theorem wave_step_eq_of (length : Int) (size : Nat) (s : Int) (hs : 1 ≤ size)
    (h1 : (s - 1) * size < length) (h2 : length ≤ s * size) : wave_step length size = s := by
  rw [wave_step_eq]
  exact ceil_div_eq_of length size s (by omega) h1 h2

/-- One event keeps `mFullScreen` and `mMinimized` from being both true, unless it is a
Minimize event arriving while `mFullScreen` is true. -/
theorem handle_event_not_both (self : Visualizer) (e : SDL_Event)
    (hinv : ¬ (self.mFullScreen = true ∧ self.mMinimized = true))
    (hmin : ∀ d1 d2, e = .WINDOWEVENT .MINIMIZED d1 d2 → self.mFullScreen = false) :
    ¬ ((handle_event self e).1.mFullScreen = true ∧ (handle_event self e).1.mMinimized = true) := by
  cases e with
  | QUIT => simpa [handle_event] using hinv
  | OTHER t => simpa [handle_event] using hinv
  | KEYDOWN sym =>
    cases sym with
    | RETURN => cases h : self.mFullScreen <;> simp [handle_event, h]
    | OTHER k => simpa [handle_event] using hinv
  | WINDOWEVENT event d1 d2 =>
    cases event with
    | SIZE_CHANGED => simpa [handle_event] using hinv
    | EXPOSED => simpa [handle_event] using hinv
    | MINIMIZED => simp [handle_event, hmin d1 d2 rfl]
    | MAXIMIZED => simp [handle_event]
    | RESTORED => simp [handle_event]
    | OTHER k => simpa [handle_event] using hinv

/-- A sequence of events keeps `mFullScreen` and `mMinimized` from being both true when each
Minimize event in it arrives while `mFullScreen` is false. -/
theorem handle_events_not_both (events : List SDL_Event) :
    ∀ (self : Visualizer), ¬ (self.mFullScreen = true ∧ self.mMinimized = true) →
      (∀ before d1 d2 after, events = before ++ .WINDOWEVENT .MINIMIZED d1 d2 :: after →
        (handle_events self before).mFullScreen = false) →
      ¬ ((handle_events self events).mFullScreen = true ∧
        (handle_events self events).mMinimized = true) := by
  induction events with
  | nil => intro self hinv _; simpa [handle_events] using hinv
  | cons e es ih =>
    intro self hinv hmin
    simp only [handle_events]
    apply ih
    · apply handle_event_not_both self e hinv
      intro d1 d2 he
      exact hmin [] d1 d2 es (by simp [he])
    · intro before d1 d2 after hsplit
      have := hmin (e :: before) d1 d2 after (by simp [hsplit])
      simpa [handle_events] using this

/-- The event loop in closed form: it handles the events before the first quit event. -/
theorem poll_loop_eq (queue : List SDL_Event) :
    ∀ (self : Visualizer) (dispatched : List SDL_Event) (calls : List Action),
      poll_loop self dispatched calls queue =
        ⟨decide (SDL_Event.QUIT ∉ queue),
          handle_events self (queue.takeWhile (· ≠ .QUIT)),
          (queue.dropWhile (· ≠ .QUIT)).tail,
          dispatched ++ queue.takeWhile (· ≠ .QUIT),
          calls ++ handle_events_calls self (queue.takeWhile (· ≠ .QUIT))⟩ := by
  induction queue with
  | nil => intro self dispatched calls; simp [poll_loop, handle_events, handle_events_calls]
  | cons e es ih =>
    intro self dispatched calls
    cases e with
    | QUIT => simp [poll_loop, handle_events, handle_events_calls]
    | OTHER t => simp [poll_loop, ih, handle_events, handle_events_calls]
    | KEYDOWN sym => simp [poll_loop, ih, handle_events, handle_events_calls]
    | WINDOWEVENT event d1 d2 => simp [poll_loop, ih, handle_events, handle_events_calls]

/-- The only SDL calls `handle_event` issues are `SDL_RenderPresent` and `SDL_SetWindowFullscreen`. -/
theorem handle_event_calls_mem (self : Visualizer) (e : SDL_Event) (a : Action)
    (ha : a ∈ (handle_event self e).2) :
    a = .RenderPresent ∨ ∃ flag, a = .SetWindowFullscreen flag := by
  cases e with
  | QUIT => simp [handle_event] at ha
  | OTHER t => simp [handle_event] at ha
  | KEYDOWN sym =>
    cases sym with
    | RETURN =>
      cases h : self.mFullScreen <;> simp [handle_event, h] at ha <;> exact Or.inr ⟨_, ha⟩
    | OTHER k => simp [handle_event] at ha
  | WINDOWEVENT event d1 d2 =>
    cases event <;> simp [handle_event] at ha <;> exact Or.inl ha

/-- The only SDL calls issued while handling events are `SDL_RenderPresent` and
`SDL_SetWindowFullscreen`. -/
theorem handle_events_calls_mem (events : List SDL_Event) :
    ∀ (self : Visualizer) (a : Action), a ∈ handle_events_calls self events →
      a = .RenderPresent ∨ ∃ flag, a = .SetWindowFullscreen flag := by
  induction events with
  | nil => intro self a ha; simp [handle_events_calls] at ha
  | cons e es ih =>
    intro self a ha
    simp only [handle_events_calls, List.mem_append] at ha
    rcases ha with ha | ha
    · exact handle_event_calls_mem self e a ha
    · exact ih _ a ha

/-- Without a quit event, the events before the first quit are all the events. -/
theorem takeWhile_not_quit_of_not_mem (queue : List SDL_Event) (h : SDL_Event.QUIT ∉ queue) :
    queue.takeWhile (· ≠ .QUIT) = queue := by
  rw [List.takeWhile_eq_self_iff]
  intro e he
  have : e ≠ .QUIT := fun hq => h (hq ▸ he)
  simpa using this

/-- With a quit event, the events from the first quit on start with that quit. -/
theorem dropWhile_not_quit_of_mem (queue : List SDL_Event) (h : SDL_Event.QUIT ∈ queue) :
    queue.dropWhile (· ≠ .QUIT) = .QUIT :: (queue.dropWhile (· ≠ .QUIT)).tail := by
  induction queue with
  | nil => simp at h
  | cons e es ih =>
    by_cases he : e = .QUIT
    · subst he; simp
    · have hes : SDL_Event.QUIT ∈ es := by
        rcases List.mem_cons.mp h with h1 | h1
        · exact absurd h1.symm he
        · exact h1
      have hd : (e :: es).dropWhile (· ≠ .QUIT) = es.dropWhile (· ≠ .QUIT) := by
        simp [List.dropWhile_cons, he]
      rw [hd]
      exact ih hes

/-- Without a quit event, nothing is left from the first quit on. -/
theorem dropWhile_not_quit_of_not_mem (queue : List SDL_Event) (h : SDL_Event.QUIT ∉ queue) :
    queue.dropWhile (· ≠ .QUIT) = [] := by
  rw [List.dropWhile_eq_nil_iff]
  intro e he
  have : e ≠ .QUIT := fun hq => h (hq ▸ he)
  simpa using this

/-- The event loop on a queue without a quit event handles every event. -/
theorem poll_loop_no_quit (self : Visualizer) (dispatched : List SDL_Event)
    (calls : List Action) (queue : List SDL_Event) (h : SDL_Event.QUIT ∉ queue) :
    poll_loop self dispatched calls queue =
      ⟨true, handle_events self queue, [], dispatched ++ queue,
        calls ++ handle_events_calls self queue⟩ := by
  rw [poll_loop_eq, takeWhile_not_quit_of_not_mem queue h, dropWhile_not_quit_of_not_mem queue h]
  simp [h]

/-- The event loop on a queue with a quit event is left through `return false`. -/
theorem poll_loop_quit (self : Visualizer) (dispatched : List SDL_Event)
    (calls : List Action) (queue : List SDL_Event) (h : SDL_Event.QUIT ∈ queue) :
    (poll_loop self dispatched calls queue).result = false := by
  rw [poll_loop_eq]
  simp [h]

/-- With a quit event in the queue, `update` ends with the event loop. -/
theorem update_of_quit (self : Visualizer) (queue : List SDL_Event)
    (h : SDL_Event.QUIT ∈ queue) :
    update self queue = .ok (poll_loop self [] [] queue) := by
  simp [update, poll_loop_quit self [] [] queue h]

/-- Without a quit event and with the window minimized after the events, `update` ends
after the event loop. -/
theorem update_of_minimized (self : Visualizer) (queue : List SDL_Event)
    (h : SDL_Event.QUIT ∉ queue) (hmin : (handle_events self queue).mMinimized = true) :
    update self queue = .ok (poll_loop self [] [] queue) := by
  simp [update, poll_loop_no_quit self [] [] queue h, hmin]

/-- Handling one event leaves the stored block unchanged. -/
theorem handle_event_packet_buffer (self : Visualizer) (e : SDL_Event) :
    (handle_event self e).1.packet_buffer = self.packet_buffer := by
  cases e with
  | QUIT => rfl
  | OTHER t => rfl
  | KEYDOWN sym =>
    cases sym with
    | RETURN => cases h : self.mFullScreen <;> simp [handle_event, h]
    | OTHER k => rfl
  | WINDOWEVENT event d1 d2 => cases event <;> rfl

/-- Handling a sequence of events leaves the stored block unchanged. -/
theorem handle_events_packet_buffer (events : List SDL_Event) :
    ∀ self : Visualizer, (handle_events self events).packet_buffer = self.packet_buffer := by
  induction events with
  | nil => intro self; rfl
  | cons e es ih =>
    intro self
    simp only [handle_events]
    rw [ih, handle_event_packet_buffer]

/-! ### `int` arithmetic -/

/-- An integer in the `int` range is its own reduction. -/
theorem wrap32_of_range (z : Int) (h1 : -2147483648 ≤ z) (h2 : z ≤ 2147483647) : wrap32 z = z := by
  unfold wrap32
  omega

/-! ### Rounding to an integer -/

/-- Rounding to an integer stays between the floor and the ceiling. -/
theorem roundHalfEven_bounds (x : ℚ) : ⌊x⌋ ≤ roundHalfEven x ∧ roundHalfEven x ≤ ⌈x⌉ := by
  have hfc : ⌊x⌋ ≤ ⌈x⌉ := Int.floor_le_ceil x
  have hstep : ¬ (x - ⌊x⌋ < 1 / 2) → ⌊x⌋ + 1 ≤ ⌈x⌉ := by
    intro h
    have h1 : (⌊x⌋ : ℚ) < x := by linarith
    have h2 : ⌊x⌋ < ⌈x⌉ := by
      have : (⌊x⌋ : ℚ) < (⌈x⌉ : ℚ) := lt_of_lt_of_le h1 (Int.le_ceil x)
      exact_mod_cast this
    omega
  unfold roundHalfEven
  split
  · exact ⟨le_rfl, hfc⟩
  · rename_i h
    have := hstep h
    split
    · exact ⟨by omega, this⟩
    · split
      · exact ⟨le_rfl, hfc⟩
      · exact ⟨by omega, this⟩

/-- Rounding to an integer stays below an integer upper bound. -/
theorem roundHalfEven_le (x : ℚ) (b : Int) (h : x ≤ b) : roundHalfEven x ≤ b :=
  le_trans (roundHalfEven_bounds x).2 (Int.ceil_le.mpr h)

/-- Rounding to an integer stays above an integer lower bound. -/
theorem le_roundHalfEven (x : ℚ) (a : Int) (h : (a : ℚ) ≤ x) : a ≤ roundHalfEven x :=
  le_trans (Int.le_floor.mpr h) (roundHalfEven_bounds x).1

/-- Rounding to an integer gives the integer that is less than `1/2` away. -/
theorem roundHalfEven_near (x : ℚ) (n : Int) (h1 : x - n < 1 / 2) (h2 : (n : ℚ) - x < 1 / 2) :
    roundHalfEven x = n := by
  by_cases hx : (n : ℚ) ≤ x
  · have hf : ⌊x⌋ = n := by
      rw [Int.floor_eq_iff]
      exact ⟨hx, by linarith⟩
    unfold roundHalfEven
    rw [hf, if_pos h1]
  · have hx' : x < n := lt_of_not_ge hx
    have hf : ⌊x⌋ = n - 1 := by
      rw [Int.floor_eq_iff]
      push_cast
      exact ⟨by linarith, by linarith⟩
    unfold roundHalfEven
    rw [hf]
    have c1 : ¬ (x - ((n - 1 : Int) : ℚ) < 1 / 2) := by push_cast; linarith
    have c2 : 1 / 2 < x - ((n - 1 : Int) : ℚ) := by push_cast; linarith
    rw [if_neg c1, if_pos c2]
    omega

/-- Rounding to an integer at a tie gives the even neighbour. -/
theorem roundHalfEven_tie (x : ℚ) (n : Int) (h : x = n + 1 / 2) :
    roundHalfEven x = if n % 2 = 0 then n else n + 1 := by
  have hf : ⌊x⌋ = n := by
    rw [Int.floor_eq_iff]
    exact ⟨by linarith, by linarith⟩
  unfold roundHalfEven
  rw [hf]
  have c1 : ¬ (x - (n : ℚ) < 1 / 2) := by linarith
  have c2 : ¬ (1 / 2 < x - (n : ℚ)) := by linarith
  rw [if_neg c1, if_neg c2]

/-! ### The binary32 grid -/

/-- The spacing of binary32 values is positive. -/
theorem ulp32_pos (q : ℚ) : 0 < ulp32 q := by
  unfold ulp32
  positivity

/-- The spacing of binary32 values in the binade `[2 ^ e, 2 ^ (e + 1))`. -/
theorem ulp32_eq (q : ℚ) (e : Int) (he : -126 ≤ e) (h1 : (2 : ℚ) ^ e ≤ |q|)
    (h2 : |q| < (2 : ℚ) ^ (e + 1)) : ulp32 q = (2 : ℚ) ^ (e - 23) := by
  have hpos : 0 < |q| := lt_of_lt_of_le (by positivity) h1
  have hlog : Int.log 2 |q| = e := by
    have a1 : e ≤ Int.log 2 |q| := (Int.zpow_le_iff_le_log (by norm_num) hpos).mp (by exact_mod_cast h1)
    have a2 : Int.log 2 |q| < e + 1 := (Int.lt_zpow_iff_log_lt (by norm_num) hpos).mp (by exact_mod_cast h2)
    omega
  unfold ulp32
  rw [hlog, max_eq_left he]

/-- Below `2 ^ k` the grid is at least as fine as `2 ^ (k - 24)`. -/
theorem ulp32_dvd (q : ℚ) (k : Int) (hk : -125 ≤ k) (hk1 : 1 ≤ k ∨ q ≠ 0) (h : |q| < (2 : ℚ) ^ k) :
    ∃ m : Nat, (2 : ℚ) ^ (k - 24) = (2 : ℚ) ^ m * ulp32 q := by
  have hlog : Int.log 2 |q| ≤ k - 1 := by
    by_cases hq : q = 0
    · subst hq
      rcases hk1 with h1 | h1
      · simp only [abs_zero, Int.log_zero_right]; omega
      · exact absurd rfl h1
    · have hpos : 0 < |q| := abs_pos.mpr hq
      have : Int.log 2 |q| < k :=
        (Int.lt_zpow_iff_log_lt (by norm_num) hpos).mp (by exact_mod_cast h)
      omega
  have he : max (Int.log 2 |q|) (-126) ≤ k - 1 := max_le hlog (by omega)
  refine ⟨(k - 1 - max (Int.log 2 |q|) (-126)).toNat, ?_⟩
  unfold ulp32
  rw [← zpow_natCast, ← zpow_add₀ (by norm_num : (2 : ℚ) ≠ 0)]
  congr 1
  rw [Int.toNat_of_nonneg (by omega)]
  ring

/-- A multiple of `2 ^ (k - 24)` is on the grid of every value below `2 ^ k`. -/
theorem onGrid_of_lt (q : ℚ) (k : Int) (hk : -125 ≤ k) (hk1 : 1 ≤ k ∨ q ≠ 0)
    (h : |q| < (2 : ℚ) ^ k) (z : Int) :
    ∃ w : Int, (z : ℚ) * (2 : ℚ) ^ (k - 24) = w * ulp32 q := by
  obtain ⟨m, hm⟩ := ulp32_dvd q k hk hk1 h
  refine ⟨z * 2 ^ m, ?_⟩
  rw [hm]
  push_cast
  ring

/-- Rounding keeps a value between two grid points that enclose it. -/
theorem round32_between (q a b : ℚ) (za zb : Int) (ha : a = za * ulp32 q) (hb : b = zb * ulp32 q)
    (h1 : a ≤ q) (h2 : q ≤ b) (ha' : -(2 : ℚ) ^ 128 < a) (hb' : b < (2 : ℚ) ^ 128) :
    ∃ r, round32 q = .finite r ∧ a ≤ r ∧ r ≤ b := by
  have hu := ulp32_pos q
  have hlow : za ≤ roundHalfEven (q / ulp32 q) := by
    apply le_roundHalfEven
    rw [le_div_iff₀ hu, ← ha]
    exact h1
  have hhigh : roundHalfEven (q / ulp32 q) ≤ zb := by
    apply roundHalfEven_le
    rw [div_le_iff₀ hu, ← hb]
    exact h2
  have hlow' : a ≤ (roundHalfEven (q / ulp32 q) : ℚ) * ulp32 q := by
    rw [ha]
    exact mul_le_mul_of_nonneg_right (by exact_mod_cast hlow) hu.le
  have hhigh' : (roundHalfEven (q / ulp32 q) : ℚ) * ulp32 q ≤ b := by
    rw [hb]
    exact mul_le_mul_of_nonneg_right (by exact_mod_cast hhigh) hu.le
  refine ⟨(roundHalfEven (q / ulp32 q) : ℚ) * ulp32 q, ?_, hlow', hhigh'⟩
  unfold round32
  rw [if_neg]
  rw [not_le, abs_lt]
  exact ⟨by linarith, by linarith⟩

/-! ### Rows -/

/-- Truncation keeps a value between two integers that enclose it. -/
theorem truncToInt_between (a b : Int) (q : ℚ) (ha : (a : ℚ) ≤ q) (hb : q ≤ (b : ℚ)) :
    a ≤ truncToInt q ∧ truncToInt q ≤ b := by
  unfold truncToInt
  split
  · refine ⟨Int.le_floor.mpr ha, ?_⟩
    have h : ((⌊q⌋ : Int) : ℚ) ≤ (b : ℚ) := le_trans (Int.floor_le q) hb
    exact_mod_cast h
  · refine ⟨?_, Int.ceil_le.mpr hb⟩
    have h : (a : ℚ) ≤ ((⌈q⌉ : Int) : ℚ) := le_trans ha (Int.le_ceil q)
    exact_mod_cast h

/-- Truncation leaves an integer value unchanged. -/
theorem truncToInt_intCast (z : Int) : truncToInt (z : ℚ) = z := by
  simp [truncToInt]

/-- Truncation toward zero of a value above `-1` is not negative. -/
theorem truncToInt_nonneg (q : ℚ) (h : -1 < q) : 0 ≤ truncToInt q := by
  unfold truncToInt
  split
  · rename_i hq
    exact Int.floor_nonneg.mpr hq
  · have h1 : (-1 : Int) < ⌈q⌉ := Int.lt_ceil.mpr (by exact_mod_cast h)
    omega

/-- Integers below `2 ^ 24` in magnitude are binary32 values. -/
theorem round32_int (n : Int) (h1 : -16777216 < n) (h2 : n < 16777216) :
    round32 (n : ℚ) = .finite n := by
  have habs : |(n : ℚ)| < (2 : ℚ) ^ (24 : Int) := by
    rw [abs_lt]
    norm_num
    exact ⟨by exact_mod_cast h1, by exact_mod_cast h2⟩
  obtain ⟨w, hw⟩ := onGrid_of_lt (n : ℚ) 24 (by norm_num) (Or.inl (by norm_num)) habs n
  have hw' : (n : ℚ) = w * ulp32 (n : ℚ) := by
    rw [← hw]; norm_num
  have hbig : ((16777216 : Int) : ℚ) < (2 : ℚ) ^ 128 := by norm_num
  have hn1 : -(2 : ℚ) ^ 128 < (n : ℚ) := by
    have : ((-16777216 : Int) : ℚ) < (n : ℚ) := by exact_mod_cast h1
    have h3 : -(2 : ℚ) ^ 128 < ((-16777216 : Int) : ℚ) := by norm_num
    linarith
  have hn2 : (n : ℚ) < (2 : ℚ) ^ 128 := by
    have : (n : ℚ) < ((16777216 : Int) : ℚ) := by exact_mod_cast h2
    linarith
  obtain ⟨r, hr, hr1, hr2⟩ := round32_between (n : ℚ) n n w w hw' hw' le_rfl le_rfl hn1 hn2
  rw [hr, le_antisymm hr2 hr1]

/-- Rounding keeps a value of magnitude below `2 ^ 24` between two integers
that enclose it. -/
theorem round32_between_int (q : ℚ) (a b : Int) (h1 : (a : ℚ) ≤ q) (h2 : q ≤ (b : ℚ))
    (ha : -16777216 < a) (hb : b < 16777216) :
    ∃ r, round32 q = .finite r ∧ (a : ℚ) ≤ r ∧ r ≤ (b : ℚ) := by
  have ha' : ((-16777216 : Int) : ℚ) < (a : ℚ) := by exact_mod_cast ha
  have hb' : (b : ℚ) < ((16777216 : Int) : ℚ) := by exact_mod_cast hb
  have habs : |q| < (2 : ℚ) ^ (24 : Int) := by
    rw [abs_lt]
    norm_num
    norm_num at ha' hb'
    exact ⟨by linarith, by linarith⟩
  obtain ⟨wa, hwa⟩ := onGrid_of_lt q 24 (by norm_num) (Or.inl (by norm_num)) habs a
  obtain ⟨wb, hwb⟩ := onGrid_of_lt q 24 (by norm_num) (Or.inl (by norm_num)) habs b
  have hbig : ((16777216 : Int) : ℚ) < (2 : ℚ) ^ 128 := by norm_num
  have hsmall : -(2 : ℚ) ^ 128 < ((-16777216 : Int) : ℚ) := by norm_num
  exact round32_between q a b wa wb (by rw [← hwa]; norm_num) (by rw [← hwb]; norm_num) h1 h2
    (by linarith) (by linarith)

/-- Rounding keeps a value of magnitude below `2 ^ 23` between two half-integers
that enclose it. -/
theorem round32_between_half (q : ℚ) (a b : Int) (h1 : (a : ℚ) / 2 ≤ q) (h2 : q ≤ (b : ℚ) / 2)
    (ha : -16777216 < a) (hb : b < 16777216) :
    ∃ r, round32 q = .finite r ∧ (a : ℚ) / 2 ≤ r ∧ r ≤ (b : ℚ) / 2 := by
  have ha' : ((-16777216 : Int) : ℚ) < (a : ℚ) := by exact_mod_cast ha
  have hb' : (b : ℚ) < ((16777216 : Int) : ℚ) := by exact_mod_cast hb
  have habs : |q| < (2 : ℚ) ^ (23 : Int) := by
    rw [abs_lt]
    norm_num
    norm_num at ha' hb'
    exact ⟨by linarith, by linarith⟩
  obtain ⟨wa, hwa⟩ := onGrid_of_lt q 23 (by norm_num) (Or.inl (by norm_num)) habs a
  obtain ⟨wb, hwb⟩ := onGrid_of_lt q 23 (by norm_num) (Or.inl (by norm_num)) habs b
  have hbig : ((16777216 : Int) : ℚ) < (2 : ℚ) ^ 128 := by norm_num
  have hsmall : -(2 : ℚ) ^ 128 < ((-16777216 : Int) : ℚ) := by norm_num
  exact round32_between q (a / 2) (b / 2) wa wb (by rw [← hwa]; norm_num; ring)
    (by rw [← hwb]; norm_num; ring) h1 h2 (by linarith) (by linarith)

/-- Rounding at a value whose binade and nearest grid point are known. -/
theorem round32_eval (q : ℚ) (e n : Int) (he : -126 ≤ e) (h1 : (2 : ℚ) ^ e ≤ |q|)
    (h2 : |q| < (2 : ℚ) ^ (e + 1)) (hn : roundHalfEven (q / (2 : ℚ) ^ (e - 23)) = n)
    (hfin : |(n : ℚ) * (2 : ℚ) ^ (e - 23)| < (2 : ℚ) ^ 128) :
    round32 q = .finite (n * (2 : ℚ) ^ (e - 23)) := by
  unfold round32
  rw [ulp32_eq q e he h1 h2, hn, if_neg (not_le.mpr hfin)]

/-- The cast of a finite value whose truncation is an `int`. -/
theorem toInt_finite (q : ℚ) (y : Int) (hy : truncToInt q = y) (h1 : -2147483648 ≤ y)
    (h2 : y ≤ 2147483647) : (Float32.finite q).toInt = some y := by
  simp only [Float32.toInt, hy, h1, h2, and_self, if_true]

/-- The product of two finite values is the rounded exact product. -/
theorem Float32.mul_finite (a b : ℚ) :
    Float32.mul (.finite a) (.finite b) = round32 (a * b) := rfl

/-- The sum of two finite values is the rounded exact sum. -/
theorem Float32.add_finite (a b : ℚ) :
    Float32.add (.finite a) (.finite b) = round32 (a + b) := rfl

/-- A row whose product and sum are integers below `2 ^ 24` in magnitude is
computed exactly. -/
theorem wave_row_exact (y : Int) (q : ℚ) (pixel_amplitude m : Int)
    (hA1 : -16777216 < pixel_amplitude) (hA2 : pixel_amplitude < 16777216)
    (hy1 : -16777216 < y) (hy2 : y < 16777216)
    (hm : q * pixel_amplitude = m) (hm1 : -16777216 < m) (hm2 : m < 16777216)
    (hs1 : -16777216 < y + m) (hs2 : y + m < 16777216) :
    wave_row y (.finite q) pixel_amplitude = some (y + m) := by
  unfold wave_row Float32.ofInt
  have hsum : (y : ℚ) + (m : ℚ) = ((y + m : Int) : ℚ) := by push_cast; ring
  rw [round32_int pixel_amplitude hA1 hA2, round32_int y hy1 hy2, Float32.mul_finite, hm,
    round32_int m hm1 hm2, Float32.add_finite, hsum, round32_int (y + m) hs1 hs2]
  exact toInt_finite _ _ (truncToInt_intCast _) (by omega) (by omega)

/-- The row of the sample `0.7f` with the baseline 0 and the amplitude 10: the `float`
product rounds up to 7. -/
theorem wave_row_seven_tenths : wave_row 0 (.finite (11744051 / 16777216)) 10 = some 7 := by
  unfold wave_row Float32.ofInt
  have h7 := round32_int 7 (by norm_num) (by norm_num)
  simp only [Int.cast_ofNat] at h7
  rw [round32_int 10 (by norm_num) (by norm_num), round32_int 0 (by norm_num) (by norm_num),
    Float32.mul_finite]
  simp only [Int.cast_ofNat, Int.cast_zero]
  have hprod : round32 (11744051 / 16777216 * 10) = .finite 7 := by
    have h := round32_eval (11744051 / 16777216 * 10) 2 14680064 (by norm_num)
      (by rw [abs_of_pos (by norm_num)]; norm_num)
      (by rw [abs_of_pos (by norm_num)]; norm_num)
      (roundHalfEven_near _ _ (by norm_num) (by norm_num))
      (by rw [abs_of_pos (by norm_num)]; norm_num)
    rw [h]
    norm_num
  rw [hprod, Float32.add_finite, zero_add, h7]
  exact toInt_finite _ _ (by simpa using truncToInt_intCast 7) (by norm_num) (by norm_num)

/-- The row of the sample `16777215 / 33554432` with the baseline 300 and the amplitude
600: the product rounds to `9830399 / 32768` and the sum, a tie, rounds up to 600. -/
theorem wave_row_below_half : wave_row 300 (.finite (16777215 / 33554432)) 600 = some 600 := by
  unfold wave_row Float32.ofInt
  rw [round32_int 600 (by norm_num) (by norm_num), round32_int 300 (by norm_num) (by norm_num),
    Float32.mul_finite]
  simp only [Int.cast_ofNat]
  have hprod : round32 (16777215 / 33554432 * 600) = .finite (9830399 / 32768) := by
    have h := round32_eval (16777215 / 33554432 * 600) 8 9830399 (by norm_num)
      (by rw [abs_of_pos (by norm_num)]; norm_num)
      (by rw [abs_of_pos (by norm_num)]; norm_num)
      (roundHalfEven_near _ _ (by norm_num) (by norm_num))
      (by rw [abs_of_pos (by norm_num)]; norm_num)
    rw [h]
    norm_num
  rw [hprod, Float32.add_finite]
  have hsum : round32 (300 + 9830399 / 32768) = .finite 600 := by
    have hn : roundHalfEven ((300 + 9830399 / 32768) / (2 : ℚ) ^ ((9 : Int) - 23)) = 9830400 := by
      rw [roundHalfEven_tie _ 9830399 (by norm_num)]
      norm_num
    have h := round32_eval (300 + 9830399 / 32768) 9 9830400 (by norm_num)
      (by rw [abs_of_pos (by norm_num)]; norm_num)
      (by rw [abs_of_pos (by norm_num)]; norm_num)
      hn
      (by rw [abs_of_pos (by norm_num)]; norm_num)
    rw [h]
    norm_num
  rw [hsum]
  exact toInt_finite _ _ (by simpa using truncToInt_intCast 600) (by norm_num) (by norm_num)

/-- The row of the sample `1.0` with the baseline 0 and the amplitude `16777219`, which
`float` holds as `16777220`. -/
theorem wave_row_large_amplitude : wave_row 0 (.finite 1) 16777219 = some 16777220 := by
  unfold wave_row Float32.ofInt
  have hA : round32 ((16777219 : Int) : ℚ) = .finite 16777220 := by
    have hn : roundHalfEven (((16777219 : Int) : ℚ) / (2 : ℚ) ^ ((24 : Int) - 23)) = 8388610 := by
      rw [roundHalfEven_tie _ 8388609 (by norm_num)]
      norm_num
    have h := round32_eval ((16777219 : Int) : ℚ) 24 8388610 (by norm_num)
      (by rw [abs_of_pos (by norm_num)]; norm_num)
      (by rw [abs_of_pos (by norm_num)]; norm_num)
      hn
      (by rw [abs_of_pos (by norm_num)]; norm_num)
    rw [h]
    norm_num
  have hE : round32 (16777220 : ℚ) = .finite 16777220 := by
    have h := round32_eval (16777220 : ℚ) 24 8388610 (by norm_num)
      (by rw [abs_of_pos (by norm_num)]; norm_num)
      (by rw [abs_of_pos (by norm_num)]; norm_num)
      (roundHalfEven_near _ _ (by norm_num) (by norm_num))
      (by rw [abs_of_pos (by norm_num)]; norm_num)
    rw [h]
    norm_num
  rw [hA, round32_int 0 (by norm_num) (by norm_num), Float32.mul_finite, one_mul, hE,
    Float32.add_finite]
  simp only [Int.cast_zero, zero_add]
  rw [hE]
  exact toInt_finite _ _ (by simpa using truncToInt_intCast 16777220) (by norm_num) (by norm_num)

/-- Rows of samples in `[-1, 1]`: with `A ≥ 0` and `|y0| + A < 2 ^ 24` the row is
defined and within `A` of the baseline. -/
theorem wave_row_amplitude (y : Int) (q : ℚ) (pixel_amplitude : Int)
    (hA : 0 ≤ pixel_amplitude) (hlow : -16777216 < y - pixel_amplitude)
    (hhigh : y + pixel_amplitude < 16777216) (hq1 : -1 ≤ q) (hq2 : q ≤ 1) :
    ∃ row, wave_row y (.finite q) pixel_amplitude = some row ∧ |row - y| ≤ pixel_amplitude := by
  have hA' : (0 : ℚ) ≤ (pixel_amplitude : ℚ) := by exact_mod_cast hA
  obtain ⟨p, hp, hp1, hp2⟩ := round32_between_int (q * pixel_amplitude) (-pixel_amplitude)
    pixel_amplitude (by push_cast; nlinarith) (by nlinarith) (by omega) (by omega)
  obtain ⟨r, hr, hr1, hr2⟩ := round32_between_int ((y : ℚ) + p) (y - pixel_amplitude)
    (y + pixel_amplitude) (by push_cast; push_cast at hp1; linarith) (by push_cast; linarith)
    hlow hhigh
  obtain ⟨ht1, ht2⟩ := truncToInt_between _ _ r hr1 hr2
  refine ⟨truncToInt r, ?_, ?_⟩
  · unfold wave_row Float32.ofInt
    rw [round32_int pixel_amplitude (by omega) (by omega), round32_int y (by omega) (by omega),
      Float32.mul_finite, hp, Float32.add_finite, hr]
    exact toInt_finite _ _ rfl (by omega) (by omega)
  · rw [abs_le]
    constructor <;> omega

/-- Rows as `update` draws them, for samples in `[-1/2, 1/2)` and a height below
`2 ^ 24`: the row is defined and lies between `0` and `height`. -/
theorem wave_row_window (height : Int) (q : ℚ) (hh1 : 1 ≤ height) (hh2 : height < 16777216)
    (hq1 : -1 / 2 ≤ q) (hq2 : q < 1 / 2) :
    ∃ row, wave_row (Int.tdiv height 2) (.finite q) height = some row ∧
      0 ≤ row ∧ row ≤ height := by
  have hdiv : Int.tdiv height 2 = height / 2 := Int.tdiv_eq_ediv (by omega) (by norm_num)
  have hy1 : 2 * Int.tdiv height 2 ≤ height := by omega
  have hy2 : height ≤ 2 * Int.tdiv height 2 + 1 := by omega
  set y := Int.tdiv height 2 with hydef
  have hh' : (1 : ℚ) ≤ (height : ℚ) := by exact_mod_cast hh1
  have hy1' : 2 * (y : ℚ) ≤ (height : ℚ) := by exact_mod_cast hy1
  have hy2' : (height : ℚ) ≤ 2 * (y : ℚ) + 1 := by exact_mod_cast hy2
  -- the product lies between the half-integers `-height / 2` and `height / 2`
  obtain ⟨p, hp, hp1, hp2⟩ := round32_between_half (q * height) (-height) height
    (by push_cast; nlinarith) (by nlinarith) (by omega) (by omega)
  push_cast at hp1
  -- the sum lies between `-1/2` and `height`
  have hsum : ∃ r, round32 ((y : ℚ) + p) = .finite r ∧ (-1 : ℚ) < r ∧ r ≤ (height : ℚ) := by
    by_cases hneg : (y : ℚ) + p < 0
    · obtain ⟨r, hr, hr1, hr2⟩ := round32_between_half ((y : ℚ) + p) (-1) 0
        (by push_cast; linarith) (by push_cast; linarith) (by norm_num) (by norm_num)
      push_cast at hr1 hr2
      exact ⟨r, hr, by linarith, by linarith⟩
    · obtain ⟨r, hr, hr1, hr2⟩ := round32_between_int ((y : ℚ) + p) 0 height
        (by push_cast; linarith) (by linarith) (by norm_num) hh2
      push_cast at hr1
      exact ⟨r, hr, by linarith, hr2⟩
  obtain ⟨r, hr, hrlow, hrhigh⟩ := hsum
  have hrlow' : ((-1 : Int) : ℚ) ≤ r := by push_cast; linarith
  obtain ⟨-, ht2⟩ := truncToInt_between (-1) height r hrlow' hrhigh
  have ht1 := truncToInt_nonneg r hrlow
  refine ⟨truncToInt r, ?_, ht1, ht2⟩
  unfold wave_row Float32.ofInt
  rw [round32_int height (by omega) (by omega), round32_int y (by omega) (by omega),
    Float32.mul_finite, hp, Float32.add_finite, hr]
  exact toInt_finite _ _ rfl (by omega) (by omega)

/-- The row of a NaN sample is undefined. -/
theorem wave_row_nan (y A : Int) : wave_row y .nan A = none := by
  unfold wave_row
  cases h : Float32.ofInt A <;> cases h2 : Float32.ofInt y <;> rfl

/-- The value `16777219` is held by `float` as `16777220`. -/
theorem round32_16777219 : round32 ((16777219 : Int) : ℚ) = .finite 16777220 := by
  have hn : roundHalfEven (((16777219 : Int) : ℚ) / (2 : ℚ) ^ ((24 : Int) - 23)) = 8388610 := by
    rw [roundHalfEven_tie _ 8388609 (by norm_num)]
    norm_num
  have h := round32_eval ((16777219 : Int) : ℚ) 24 8388610 (by norm_num)
    (by rw [abs_of_pos (by norm_num)]; norm_num)
    (by rw [abs_of_pos (by norm_num)]; norm_num)
    hn
    (by rw [abs_of_pos (by norm_num)]; norm_num)
  rw [h]
  norm_num

/-- The value `16777217` is held by `float` as `16777216`. -/
theorem round32_16777217 : round32 ((16777217 : Int) : ℚ) = .finite 16777216 := by
  have hn : roundHalfEven (((16777217 : Int) : ℚ) / (2 : ℚ) ^ ((24 : Int) - 23)) = 8388608 := by
    rw [roundHalfEven_tie _ 8388608 (by norm_num)]
    norm_num
  have h := round32_eval ((16777217 : Int) : ℚ) 24 8388608 (by norm_num)
    (by rw [abs_of_pos (by norm_num)]; norm_num)
    (by rw [abs_of_pos (by norm_num)]; norm_num)
    hn
    (by rw [abs_of_pos (by norm_num)]; norm_num)
  rw [h]
  norm_num

/-- The value `16777216 = 2 ^ 24` is a `float` value. -/
theorem round32_16777216 : round32 (16777216 : ℚ) = .finite 16777216 := by
  have h := round32_eval (16777216 : ℚ) 24 8388608 (by norm_num)
    (by rw [abs_of_pos (by norm_num)]; norm_num)
    (by rw [abs_of_pos (by norm_num)]; norm_num)
    (roundHalfEven_near _ _ (by norm_num) (by norm_num))
    (by rw [abs_of_pos (by norm_num)]; norm_num)
  rw [h]
  norm_num

/-- The row of a zero sample with the baseline `16777217` and the amplitude 0:
`float` holds the baseline as `16777216`. -/
theorem wave_row_large_baseline : wave_row 16777217 (.finite 0) 0 = some 16777216 := by
  unfold wave_row Float32.ofInt
  rw [round32_16777217, round32_int 0 (by norm_num) (by norm_num), Float32.mul_finite]
  simp only [Int.cast_zero, mul_zero]
  have h0 := round32_int 0 (by norm_num) (by norm_num)
  simp only [Int.cast_zero] at h0
  rw [h0, Float32.add_finite, add_zero, round32_16777216]
  exact toInt_finite _ _ (by simpa using truncToInt_intCast 16777216) (by norm_num) (by norm_num)

/-- The row of the sample `-1/2` with the height `16777219`, which `float` holds
as `16777220`, and the baseline `16777219 div 2 = 8388609`: the row is `-1`. -/
theorem wave_row_large_height :
    wave_row (Int.tdiv 16777219 2) (.finite (-1 / 2)) 16777219 = some (-1) := by
  have hdiv : Int.tdiv 16777219 2 = 8388609 := by decide
  rw [hdiv]
  unfold wave_row Float32.ofInt
  rw [round32_16777219, round32_int 8388609 (by norm_num) (by norm_num), Float32.mul_finite]
  have hprod : (-1 / 2 : ℚ) * 16777220 = ((-8388610 : Int) : ℚ) := by norm_num
  rw [hprod, round32_int (-8388610) (by norm_num) (by norm_num), Float32.add_finite]
  have hsum : ((8388609 : Int) : ℚ) + ((-8388610 : Int) : ℚ) = ((-1 : Int) : ℚ) := by norm_num
  rw [hsum, round32_int (-1) (by norm_num) (by norm_num)]
  exact toInt_finite _ _ (truncToInt_intCast (-1)) (by norm_num) (by norm_num)

/-- The row of the sample `1e10f` with the baseline 300 and the amplitude 600 is
undefined: the sum is `6000000106496`, which is not an `int`. -/
theorem wave_row_out_of_range : wave_row 300 (.finite 10000000000) 600 = none := by
  unfold wave_row Float32.ofInt
  rw [round32_int 600 (by norm_num) (by norm_num), round32_int 300 (by norm_num) (by norm_num),
    Float32.mul_finite]
  simp only [Int.cast_ofNat]
  have hprod : round32 (10000000000 * 600) = .finite 6000000106496 := by
    have h := round32_eval (10000000000 * 600) 42 11444092 (by norm_num)
      (by rw [abs_of_pos (by norm_num)]; norm_num)
      (by rw [abs_of_pos (by norm_num)]; norm_num)
      (roundHalfEven_near _ _ (by norm_num) (by norm_num))
      (by rw [abs_of_pos (by norm_num)]; norm_num)
    rw [h]
    norm_num
  rw [hprod, Float32.add_finite]
  have hsum : round32 (300 + 6000000106496) = .finite 6000000106496 := by
    have h := round32_eval (300 + 6000000106496) 42 11444092 (by norm_num)
      (by rw [abs_of_pos (by norm_num)]; norm_num)
      (by rw [abs_of_pos (by norm_num)]; norm_num)
      (roundHalfEven_near _ _ (by norm_num) (by norm_num))
      (by rw [abs_of_pos (by norm_num)]; norm_num)
    rw [h]
    norm_num
  rw [hsum]
  have ht : truncToInt (6000000106496 : ℚ) = 6000000106496 := by
    simpa using truncToInt_intCast 6000000106496
  simp only [Float32.toInt, ht]
  norm_num

/-! ### The point loop -/

/-- A call sequence completes when each call has a null `data` or a
non-negative `int` count. -/
theorem copy_data_seq_defined (self : Visualizer) (cs : List CopyCall)
    (h : ∀ c ∈ cs, c.data = none ∨ 0 ≤ wrap32 (c.channels * c.frames)) :
    ∃ s, copy_data_seq self cs = some s := by
  induction cs generalizing self with
  | nil => exact ⟨self, rfl⟩
  | cons d ds ih =>
    have hd := h d (List.mem_cons_self d ds)
    have hds : ∀ c ∈ ds, c.data = none ∨ 0 ≤ wrap32 (c.channels * c.frames) :=
      fun c hc => h c (List.mem_cons_of_mem d hc)
    simp only [copy_data_seq, copy_data]
    cases hdata : d.data with
    | none => exact ih _ hds
    | some mem =>
      have hnn : 0 ≤ wrap32 (d.channels * d.frames) := by
        rcases hd with hd | hd
        · rw [hdata] at hd; cases hd
        · exact hd
      simp only [hnn, if_true]
      exact ih _ hds

/-- The loop stops at once, whatever the budget, when `i` has reached `length`. -/
theorem wave_loop_done (start : SDL_Point) (length A step : Int) (buf : List Sample)
    (fuel : Nat) (i : Int) (amp : Nat) (points : List SDL_Point) (hi : length ≤ i) :
    wave_loop start length A step buf fuel i amp points = .ok points := by
  have hlt : ¬ i < length := by omega
  cases fuel with
  | zero => rw [wave_loop, if_neg hlt]
  | succ fuel => rw [wave_loop, if_neg hlt]

/-- The loop run for `r` iterations without `int` overflow: when
`i + k * step < length` for `k < r`, `length ≤ i + r * step ≤ INT_MAX`, a
budget of at least `r` iterations and `r` remaining samples give the `r` points
of these iterations, appended to the points collected so far, if the row of
each of the `r` samples is defined, and the cast fault otherwise. -/
theorem wave_loop_run (start : SDL_Point) (length A step : Int) (buf : List Sample)
    (hstep : 0 ≤ step) :
    ∀ (r fuel : Nat) (i : Int) (amp : Nat) (points : List SDL_Point),
      length ≤ i + r * step → (∀ k : Nat, k < r → i + k * step < length) → r ≤ fuel →
      amp + r ≤ buf.length → -2147483648 ≤ i → i + r * step ≤ 2147483647 →
      ((∀ k : Nat, k < r →
          (wave_row start.y (buf.getD (amp + k) (.finite 0)) A).isSome = true) →
        wave_loop start length A step buf fuel i amp points =
          .ok (points ++ (List.range r).map fun (k : Nat) =>
            ⟨wrap32 (start.x + (i + k * step)),
              (wave_row start.y (buf.getD (amp + k) (.finite 0)) A).getD 0⟩)) ∧
      (¬ (∀ k : Nat, k < r →
          (wave_row start.y (buf.getD (amp + k) (.finite 0)) A).isSome = true) →
        wave_loop start length A step buf fuel i amp points = .error .castUndefined) := by
  intro r
  induction r with
  | zero =>
    intro fuel i amp points hge _ _ _ _ _
    refine ⟨fun _ => ?_, fun h => absurd (fun k hk => absurd hk (Nat.not_lt_zero k)) h⟩
    rw [wave_loop_done _ _ _ _ _ _ _ _ _ (by simpa using hge)]
    simp
  | succ r ih =>
    intro fuel i amp points hge hlt hfuel hamp hmin hmax
    have hi : i < length := by simpa using hlt 0 (Nat.succ_pos r)
    obtain ⟨fuel, rfl⟩ : ∃ f, fuel = f + 1 := ⟨fuel - 1, by omega⟩
    have hget : buf[amp]? = some (buf.getD amp (.finite 0)) := by
      have hlen : amp < buf.length := by omega
      simp [List.getD_eq_getElem?_getD, List.getElem?_eq_getElem hlen]
    have hr0 : 0 ≤ (r : Int) * step := mul_nonneg (by omega) hstep
    have hcast : ((r + 1 : Nat) : Int) * step = (r : Int) * step + step := by
      push_cast; ring
    rw [hcast] at hge hmax
    have hwrap : wrap32 (i + step) = i + step := wrap32_of_range _ (by omega) (by omega)
    have hih := ih fuel (i + step) (amp + 1)
      (points ++ [⟨wrap32 (start.x + i),
        (wave_row start.y (buf.getD amp (.finite 0)) A).getD 0⟩])
      (by omega)
      (by
        intro k hk
        have h := hlt (k + 1) (by omega)
        have e : i + step + (k : Int) * step = i + ((k + 1 : Nat) : Int) * step := by
          push_cast; ring
        rw [e]; exact h)
      (by omega) (by omega) (by omega) (by omega)
    have hshift : (∀ k : Nat, k < r + 1 →
          (wave_row start.y (buf.getD (amp + k) (.finite 0)) A).isSome = true) ↔
        ((wave_row start.y (buf.getD amp (.finite 0)) A).isSome = true ∧
          ∀ k : Nat, k < r →
            (wave_row start.y (buf.getD (amp + 1 + k) (.finite 0)) A).isSome = true) := by
      constructor
      · intro h
        refine ⟨by simpa using h 0 (by omega), fun k hk => ?_⟩
        have := h (k + 1) (by omega)
        rwa [show amp + (k + 1) = amp + 1 + k by omega] at this
      · rintro ⟨h0, hrest⟩ k hk
        cases k with
        | zero => simpa using h0
        | succ k =>
          have := hrest k (by omega)
          rwa [show amp + 1 + k = amp + (k + 1) by omega] at this
    cases hrow : wave_row start.y (buf.getD amp (.finite 0)) A with
    | none =>
      have hloop : wave_loop start length A step buf (fuel + 1) i amp points =
          .error .castUndefined := by
        simp only [wave_loop, hi, if_true, hget, hrow]
      refine ⟨fun h => ?_, fun _ => hloop⟩
      have := (hshift.mp h).1
      rw [hrow] at this
      cases this
    | some y =>
      have hloop : wave_loop start length A step buf (fuel + 1) i amp points =
          wave_loop start length A step buf fuel (i + step) (amp + 1)
            (points ++ [⟨wrap32 (start.x + i), y⟩]) := by
        simp only [wave_loop, hi, if_true, hget, hrow, hwrap]
      rw [hrow] at hih
      simp only [Option.getD_some] at hih
      refine ⟨fun h => ?_, fun h => ?_⟩
      · rw [hloop, hih.1 (hshift.mp h).2]
        rw [List.range_succ_eq_map, List.map_cons, List.map_map, List.append_assoc]
        congr 2
        simp only [List.singleton_append, Nat.cast_zero, zero_mul, add_zero, hrow,
          Option.getD_some, List.cons.injEq, true_and]
        apply List.map_congr_left
        intro k _
        simp only [Function.comp_apply, Nat.succ_eq_add_one, Nat.cast_add, Nat.cast_one]
        have e1 : i + step + (k : Int) * step = i + ((k : Int) + 1) * step := by ring
        have e2 : amp + 1 + k = amp + (k + 1) := by omega
        rw [e1, e2]
      · rw [hloop]
        apply hih.2
        intro hrest
        exact h (hshift.mpr ⟨by rw [hrow]; rfl, hrest⟩)

/-- The point loop from its start, for a non-empty block and a width of at
least 1 for which the loop counter does not overflow
(`⌈W / step⌉ * step ≤ INT_MAX`): `⌈W / step⌉` is at most `W` and at most the
block size, and every budget of at least `⌈W / step⌉` iterations gives the
points of these iterations if each of their rows is defined, and the cast
fault otherwise. -/
theorem wave_loop_from_start (buf : List Sample) (start : SDL_Point) (length A : Int)
    (hbuf : 1 ≤ buf.length) (hlen : 1 ≤ length)
    (hmax : ⌈(length : ℚ) / (wave_step length buf.length : ℚ)⌉ * wave_step length buf.length
      ≤ 2147483647) :
    ⌈(length : ℚ) / (wave_step length buf.length : ℚ)⌉.toNat ≤ length.toNat ∧
    ⌈(length : ℚ) / (wave_step length buf.length : ℚ)⌉.toNat ≤ buf.length ∧
    1 ≤ ⌈(length : ℚ) / (wave_step length buf.length : ℚ)⌉.toNat ∧
    ∀ fuel, ⌈(length : ℚ) / (wave_step length buf.length : ℚ)⌉.toNat ≤ fuel →
      ((∀ k : Nat, k < ⌈(length : ℚ) / (wave_step length buf.length : ℚ)⌉.toNat →
          (wave_row start.y (buf.getD k (.finite 0)) A).isSome = true) →
        wave_loop start length A (wave_step length buf.length) buf fuel 0 0 [] =
          .ok ((List.range ⌈(length : ℚ) / (wave_step length buf.length : ℚ)⌉.toNat).map
            fun (k : Nat) => ⟨wrap32 (start.x + (k : Int) * wave_step length buf.length),
              (wave_row start.y (buf.getD k (.finite 0)) A).getD 0⟩)) ∧
      (¬ (∀ k : Nat, k < ⌈(length : ℚ) / (wave_step length buf.length : ℚ)⌉.toNat →
          (wave_row start.y (buf.getD k (.finite 0)) A).isSome = true) →
        wave_loop start length A (wave_step length buf.length) buf fuel 0 0 [] =
          .error .castUndefined) := by
  have hs := wave_step_pos length buf.length hlen hbuf
  have hmul := wave_step_mul_ge length buf.length hbuf
  set s := wave_step length buf.length with hsdef
  have hs0 : 0 < s := by omega
  have hr0 : 0 < ⌈(length : ℚ) / (s : ℚ)⌉ := (lt_ceil_div_iff length s 0 hs0).mpr (by omega)
  have hcast : ((⌈(length : ℚ) / (s : ℚ)⌉.toNat : Nat) : Int) = ⌈(length : ℚ) / (s : ℚ)⌉ :=
    Int.toNat_of_nonneg hr0.le
  rw [← hcast] at hmax
  set r := ⌈(length : ℚ) / (s : ℚ)⌉.toNat with hrdef
  have hge : length ≤ (r : Int) * s := (ceil_div_le_iff length s r hs0).mp (by omega)
  have hlt : ∀ k : Nat, k < r → (k : Int) * s < length := by
    intro k hk
    exact (lt_ceil_div_iff length s k hs0).mp (by omega)
  have hfuel : r ≤ length.toNat := by
    have h1 : ⌈(length : ℚ) / (s : ℚ)⌉ ≤ length :=
      (ceil_div_le_iff length s length hs0).mpr (by nlinarith)
    omega
  have hN : r ≤ buf.length := by
    have h1 : ⌈(length : ℚ) / (s : ℚ)⌉ ≤ (buf.length : Int) :=
      (ceil_div_le_iff length s buf.length hs0).mpr (by rw [mul_comm]; exact hmul)
    omega
  refine ⟨hfuel, hN, by omega, ?_⟩
  intro fuel hf
  have h := wave_loop_run start length A s buf hs0.le r fuel 0 0 []
    (by simpa using hge) (by simpa using hlt) hf (by simpa using hN) (by norm_num)
    (by simpa using hmax)
  simpa using h

/-- The loop counter does not overflow for a width of at most `2 ^ 30`. -/
theorem wave_counter_in_range (length : Int) (size : Nat) (hs : 1 ≤ size) (hl : 1 ≤ length)
    (hmax : length ≤ 1073741824) :
    ⌈(length : ℚ) / (wave_step length size : ℚ)⌉ * wave_step length size ≤ 2147483647 := by
  have hpos := wave_step_pos length size hl hs
  have hs0 : 0 < wave_step length size := by omega
  have hle : wave_step length size ≤ length := by
    rw [wave_step_eq]
    exact (ceil_div_le_iff length size length (by omega)).mpr (by nlinarith)
  have hlow : (⌈(length : ℚ) / (wave_step length size : ℚ)⌉ - 1) * wave_step length size
      < length := (lt_ceil_div_iff length _ _ hs0).mp (by omega)
  have : ⌈(length : ℚ) / (wave_step length size : ℚ)⌉ * wave_step length size
      < length + wave_step length size := by linarith
  omega

/-- The points of a non-empty block over a width of at least 1 for which the
loop counter does not overflow. -/
theorem wave_points_eq (buf : List Sample) (start : SDL_Point) (length A : Int)
    (hbuf : 1 ≤ buf.length) (hlen : 1 ≤ length)
    (hmax : ⌈(length : ℚ) / (wave_step length buf.length : ℚ)⌉ * wave_step length buf.length
      ≤ 2147483647) :
    ((∀ k : Nat, k < ⌈(length : ℚ) / (wave_step length buf.length : ℚ)⌉.toNat →
        (wave_row start.y (buf.getD k (.finite 0)) A).isSome = true) →
      wave_points buf start length A =
        .ok ((List.range ⌈(length : ℚ) / (wave_step length buf.length : ℚ)⌉.toNat).map
          fun (k : Nat) => ⟨wrap32 (start.x + (k : Int) * wave_step length buf.length),
            (wave_row start.y (buf.getD k (.finite 0)) A).getD 0⟩)) ∧
    (¬ (∀ k : Nat, k < ⌈(length : ℚ) / (wave_step length buf.length : ℚ)⌉.toNat →
        (wave_row start.y (buf.getD k (.finite 0)) A).isSome = true) →
      wave_points buf start length A = .error .castUndefined) := by
  obtain ⟨-, hN, -, h⟩ := wave_loop_from_start buf start length A hbuf hlen hmax
  have hne : buf.isEmpty = false := by
    cases buf with
    | nil => simp at hbuf
    | cons a t => rfl
  have hpts : wave_points buf start length A =
      wave_loop start length A (wave_step length buf.length) buf (buf.length + 1) 0 0 [] := by
    simp only [wave_points, hne, Bool.not_false, if_true]
  rw [hpts]
  exact h (buf.length + 1) (by omega)

/-- A non-empty block over a width of at most 0 gives no point: the loop is not entered. -/
theorem wave_points_nonpos (buf : List Sample) (start : SDL_Point) (length A : Int)
    (hbuf : 1 ≤ buf.length) (hlen : length ≤ 0) :
    wave_points buf start length A = .ok [] := by
  have hne : buf.isEmpty = false := by
    cases buf with
    | nil => simp at hbuf
    | cons a t => rfl
  simp only [wave_points, hne, Bool.not_false, if_true]
  exact wave_loop_done _ _ _ _ _ _ _ _ _ hlen

/-- The two points of the silence branch. -/
theorem wave_points_silence (start : SDL_Point) (length A : Int) :
    wave_points [] start length A =
      .ok [⟨start.x, start.y⟩, ⟨wrap32 (start.x + length - 1), start.y⟩] := by
  have h : wrap32 (wrap32 (start.x + length) - 1) = wrap32 (start.x + length - 1) := by
    unfold wrap32
    omega
  simp [wave_points, h]

/-- Every row the loop adds is the row of a sample of the block. -/
theorem wave_loop_rows (P : Int → Prop) (start : SDL_Point) (length A step : Int)
    (buf : List Sample) (hP : ∀ s ∈ buf, ∀ y, wave_row start.y s A = some y → P y) :
    ∀ (fuel : Nat) (i : Int) (amp : Nat) (points result : List SDL_Point),
      (∀ p ∈ points, P p.y) →
      wave_loop start length A step buf fuel i amp points = .ok result →
      ∀ p ∈ result, P p.y := by
  intro fuel
  induction fuel with
  | zero =>
    intro i amp points result hpts hres
    by_cases hi : i < length
    · rw [wave_loop, if_pos hi] at hres
      cases hres
    · rw [wave_loop, if_neg hi] at hres
      cases hres
      exact hpts
  | succ fuel ih =>
    intro i amp points result hpts hres
    by_cases hi : i < length
    · rw [wave_loop, if_pos hi] at hres
      cases hget : buf[amp]? with
      | none =>
        simp only [hget, reduceCtorEq] at hres
      | some s =>
        simp only [hget] at hres
        cases hrow : wave_row start.y s A with
        | none =>
          simp only [hrow, reduceCtorEq] at hres
        | some y =>
          simp only [hrow] at hres
          refine ih _ _ _ _ ?_ hres
          intro p hp
          rcases List.mem_append.mp hp with hp | hp
          · exact hpts p hp
          · rw [List.mem_singleton] at hp
            subst hp
            exact hP s (List.getElem?_mem hget) y hrow
    · rw [wave_loop, if_neg hi] at hres
      cases hres
      exact hpts

/-- Every point of `draw_wave` has the baseline row (silence) or the row of a
sample of the block. -/
theorem wave_points_rows (P : Int → Prop) (buf : List Sample) (start : SDL_Point)
    (length A : Int) (hbase : P start.y)
    (hP : ∀ s ∈ buf, ∀ y, wave_row start.y s A = some y → P y)
    (points : List SDL_Point) (h : wave_points buf start length A = .ok points) :
    ∀ p ∈ points, P p.y := by
  cases hb : buf with
  | nil =>
    rw [hb, wave_points_silence] at h
    cases h
    intro p hp
    simp only [List.mem_cons, List.mem_singleton, List.not_mem_nil, or_false] at hp
    rcases hp with rfl | rfl <;> exact hbase
  | cons a t =>
    have hne : buf.isEmpty = false := by rw [hb]; rfl
    simp only [wave_points, hne, Bool.not_false, if_true] at h
    exact wave_loop_rows P start length A _ buf hP _ _ _ _ _ (by simp) h

/-- The actions of `draw_wave` for a non-empty vector of points. -/
theorem draw_wave_of_points (self : Visualizer) (start : SDL_Point) (length A : Int)
    (color : SDL_Color) (points : List SDL_Point)
    (h : wave_points self.packet_buffer start length A = .ok points) (hne : points ≠ []) :
    draw_wave self start length A color =
      .ok [.lockPacketBuffer, .unlockPacketBuffer,
        .SetRenderDrawColor color.r color.g color.b color.a, .RenderDrawLines points] := by
  have : points.isEmpty = false := by
    cases points with
    | nil => exact absurd rfl hne
    | cons p ps => rfl
  simp only [draw_wave, h, this]
  rfl

/-- A fault of the point loop is a fault of `draw_wave`. -/
theorem draw_wave_of_fault (self : Visualizer) (start : SDL_Point) (length A : Int)
    (color : SDL_Color) (fault : DrawFault)
    (h : wave_points self.packet_buffer start length A = .error fault) :
    draw_wave self start length A color = .error fault := by
  simp only [draw_wave, h]

/-- With an empty vector of points `draw_wave` evaluates `points[0]`. -/
theorem draw_wave_of_empty (self : Visualizer) (start : SDL_Point) (length A : Int)
    (color : SDL_Color) (h : wave_points self.packet_buffer start length A = .ok []) :
    draw_wave self start length A color = .error .emptyPoints := by
  simp only [draw_wave, h]
  rfl

/-- Without a quit event and with the window not minimized after the events,
`update` renders: clear, `draw_wave`, present; a fault of `draw_wave` is a
fault of `update`. -/
theorem update_of_render (self : Visualizer) (queue : List SDL_Event)
    (h : SDL_Event.QUIT ∉ queue) (hmin : (handle_events self queue).mMinimized = false) :
    update self queue =
      match draw_wave (handle_events self queue)
        ⟨0, Int.tdiv (handle_events self queue).window_height 2⟩
        (handle_events self queue).window_width (handle_events self queue).window_height
        ⟨255, 255, 255, 255⟩ with
      | .error fault => .error fault
      | .ok drawn => .ok ⟨true, handle_events self queue, [], queue,
          handle_events_calls self queue ++ [.SetRenderDrawColor 0 0 0 255, .RenderClear]
            ++ drawn ++ [.RenderPresent]⟩ := by
  simp only [update, poll_loop_no_quit self [] [] queue h, hmin, Bool.not_true, Bool.false_eq_true,
    if_false, List.nil_append]

/-- One iteration of the loop that pushes a point. -/
theorem wave_loop_step (start : SDL_Point) (length A step : Int) (buf : List Sample)
    (fuel : Nat) (i : Int) (amp : Nat) (points : List SDL_Point) (s : Sample) (y : Int)
    (hi : i < length) (hget : buf[amp]? = some s) (hrow : wave_row start.y s A = some y) :
    wave_loop start length A step buf (fuel + 1) i amp points =
      wave_loop start length A step buf fuel (wrap32 (i + step)) (amp + 1)
        (points ++ [⟨wrap32 (start.x + i), y⟩]) := by
  rw [wave_loop, if_pos hi]
  simp only [hget, hrow]

/-- An iteration of the loop with the iterator at the end of the block. -/
theorem wave_loop_past_end (start : SDL_Point) (length A step : Int) (buf : List Sample)
    (fuel : Nat) (i : Int) (amp : Nat) (points : List SDL_Point)
    (hi : i < length) (hget : buf[amp]? = none) :
    wave_loop start length A step buf (fuel + 1) i amp points = .error .readPastEnd := by
  rw [wave_loop, if_pos hi]
  simp only [hget]

/-- An iteration of the loop with the budget used up. -/
theorem wave_loop_out_of_fuel (start : SDL_Point) (length A step : Int) (buf : List Sample)
    (i : Int) (amp : Nat) (points : List SDL_Point) (hi : i < length) :
    wave_loop start length A step buf 0 i amp points = .error .outOfFuel := by
  rw [wave_loop, if_pos hi]

/-- The row of a zero sample is the baseline. -/
theorem wave_row_zero (y A : Int) (hy1 : -16777216 < y) (hy2 : y < 16777216)
    (hA1 : -16777216 < A) (hA2 : A < 16777216) :
    wave_row y (.finite 0) A = some y := by
  have h := wave_row_exact y 0 A 0 hA1 hA2 hy1 hy2 (by simp) (by norm_num) (by norm_num)
    (by omega) (by omega)
  simpa using h

/-- Two samples over the width `INT_MAX`: the step is `2 ^ 30`, the counter
overflows after the second point and the third iteration reads past the end. -/
theorem wave_loop_overflow (start : SDL_Point) (A : Int) (fuel : Nat)
    (hy1 : -16777216 < start.y) (hy2 : start.y < 16777216)
    (hA1 : -16777216 < A) (hA2 : A < 16777216) :
    wave_loop start 2147483647 A 1073741824 [.finite 0, .finite 0] (fuel + 3) 0 0 [] =
      .error .readPastEnd := by
  have hrow := wave_row_zero start.y A hy1 hy2 hA1 hA2
  have w1 : wrap32 (0 + 1073741824) = 1073741824 := by decide
  have w2 : wrap32 (1073741824 + 1073741824) = -2147483648 := by decide
  rw [wave_loop_step _ _ _ _ _ _ _ _ _ (.finite 0) start.y (by norm_num) rfl hrow, w1,
    wave_loop_step _ _ _ _ _ _ _ _ _ (.finite 0) start.y (by norm_num) rfl hrow, w2,
    wave_loop_past_end _ _ _ _ _ _ _ _ _ (by norm_num) rfl]

/-- The step for two samples over the width `INT_MAX`. -/
theorem wave_step_overflow : wave_step 2147483647 2 = 1073741824 :=
  wave_step_eq_of 2147483647 2 1073741824 (by norm_num) (by norm_num) (by norm_num)

/-- Two samples over the width `INT_MAX` make `draw_wave` read past the end. -/
theorem wave_points_overflow (start : SDL_Point) (A : Int)
    (hy1 : -16777216 < start.y) (hy2 : start.y < 16777216)
    (hA1 : -16777216 < A) (hA2 : A < 16777216) :
    wave_points [.finite 0, .finite 0] start 2147483647 A = .error .readPastEnd := by
  have h : wave_points [.finite 0, .finite 0] start 2147483647 A =
      wave_loop start 2147483647 A (wave_step 2147483647 2) [.finite 0, .finite 0] (0 + 3)
        0 0 [] := rfl
  rw [h, wave_step_overflow]
  exact wave_loop_overflow start A 0 hy1 hy2 hA1 hA2

/-- The budget of the loop is never used up when it exceeds the number of
samples left: an iteration with the iterator at the end of the block reads past
the end. -/
theorem wave_loop_fuel (start : SDL_Point) (length A step : Int) (buf : List Sample) :
    ∀ (fuel : Nat) (i : Int) (amp : Nat) (points : List SDL_Point),
      buf.length + 1 ≤ amp + fuel → 1 ≤ fuel →
      wave_loop start length A step buf fuel i amp points ≠ .error .outOfFuel := by
  intro fuel
  induction fuel with
  | zero => intro i amp points _ h; omega
  | succ fuel ih =>
    intro i amp points hlen _
    by_cases hi : i < length
    · cases hget : buf[amp]? with
      | none =>
        rw [wave_loop_past_end _ _ _ _ _ _ _ _ _ hi hget]
        exact fun h => by cases h
      | some s =>
        have hamp : amp < buf.length := by
          by_contra hcon
          rw [List.getElem?_eq_none (by omega)] at hget
          cases hget
        cases hrow : wave_row start.y s A with
        | none =>
          rw [wave_loop, if_pos hi]
          simp only [hget, hrow]
          exact fun h => by cases h
        | some y =>
          rw [wave_loop_step _ _ _ _ _ _ _ _ _ s y hi hget hrow]
          exact ih _ _ _ (by omega) (by omega)
    · rw [wave_loop_done _ _ _ _ _ _ _ _ _ (by omega)]
      exact fun h => by cases h

/-- The point loop of `draw_wave` never uses up the budget it is given. -/
theorem wave_points_fuel (buf : List Sample) (start : SDL_Point) (length A : Int) :
    wave_points buf start length A ≠ .error .outOfFuel := by
  cases hb : buf with
  | nil =>
    rw [wave_points_silence]
    exact fun h => by cases h
  | cons a t =>
    have hne : (a :: t).isEmpty = false := rfl
    simp only [wave_points, hne, Bool.not_false, if_true]
    exact wave_loop_fuel _ _ _ _ _ _ _ _ _ (by omega) (by omega)

/-- An iteration of the loop whose row is undefined. -/
theorem wave_loop_cast_fault (start : SDL_Point) (length A step : Int) (buf : List Sample)
    (fuel : Nat) (i : Int) (amp : Nat) (points : List SDL_Point) (s : Sample)
    (hi : i < length) (hget : buf[amp]? = some s) (hrow : wave_row start.y s A = none) :
    wave_loop start length A step buf (fuel + 1) i amp points = .error .castUndefined := by
  rw [wave_loop, if_pos hi]
  simp only [hget, hrow]

/-- The loop run for its first `r` iterations, each with a defined row and a
counter in the `int` range: it goes on from the counter `i + r * step` reduced
into the `int` range, with `r` points pushed and the iterator advanced by `r`. -/
theorem wave_loop_front (start : SDL_Point) (length A step : Int) (buf : List Sample) :
    ∀ (r fuel : Nat) (i : Int) (amp : Nat) (points : List SDL_Point),
      (∀ k : Nat, k < r → i + k * step < length) → amp + r ≤ buf.length →
      -2147483648 ≤ i → i ≤ 2147483647 →
      (∀ k : Nat, k < r → -2147483648 ≤ i + k * step ∧ i + k * step ≤ 2147483647) →
      (∀ k : Nat, k < r →
        (wave_row start.y (buf.getD (amp + k) (.finite 0)) A).isSome = true) →
      ∃ more, wave_loop start length A step buf (fuel + r) i amp points =
        wave_loop start length A step buf fuel (wrap32 (i + r * step)) (amp + r)
          (points ++ more) := by
  intro r
  induction r with
  | zero =>
    intro fuel i amp points _ _ hmin hmax _ _
    refine ⟨[], ?_⟩
    simp only [Nat.cast_zero, zero_mul, add_zero, List.append_nil, Nat.add_zero]
    rw [wrap32_of_range i hmin hmax]
  | succ r ih =>
    intro fuel i amp points hlt hamp hmin hmax hrange hrows
    have hi : i < length := by simpa using hlt 0 (Nat.succ_pos r)
    have hget : buf[amp]? = some (buf.getD amp (.finite 0)) := by
      have hlen : amp < buf.length := by omega
      simp [List.getD_eq_getElem?_getD, List.getElem?_eq_getElem hlen]
    have hrow0 : (wave_row start.y (buf.getD amp (.finite 0)) A).isSome = true := by
      have := hrows 0 (Nat.succ_pos r)
      rwa [Nat.add_zero] at this
    obtain ⟨y, hy⟩ := Option.isSome_iff_exists.mp hrow0
    have hfirst : wave_loop start length A step buf (fuel + (r + 1)) i amp points =
        wave_loop start length A step buf (fuel + r) (wrap32 (i + step)) (amp + 1)
          (points ++ [⟨wrap32 (start.x + i), y⟩]) :=
      wave_loop_step _ _ _ _ _ _ _ _ _ _ y hi hget hy
    have hw1 : -2147483648 ≤ wrap32 (i + step) ∧ wrap32 (i + step) ≤ 2147483647 := by
      unfold wrap32
      omega
    rcases Nat.eq_zero_or_pos r with hr | hr
    · subst hr
      refine ⟨[⟨wrap32 (start.x + i), y⟩], ?_⟩
      rw [hfirst]
      simp only [Nat.add_zero, zero_add, Nat.cast_one, one_mul]
    · have hin := hrange 1 (by omega)
      simp only [Nat.cast_one, one_mul] at hin
      have hw : wrap32 (i + step) = i + step := wrap32_of_range _ hin.1 hin.2
      have hshift : ∀ k : Nat, i + step + (k : Int) * step = i + ((k + 1 : Nat) : Int) * step := by
        intro k
        push_cast
        ring
      obtain ⟨more, hmore⟩ := ih fuel (i + step) (amp + 1)
        (points ++ [⟨wrap32 (start.x + i), y⟩])
        (by intro k hk; rw [hshift]; exact hlt (k + 1) (by omega))
        (by omega) hin.1 hin.2
        (by intro k hk; rw [hshift]; exact hrange (k + 1) (by omega))
        (by
          intro k hk
          have := hrows (k + 1) (by omega)
          rwa [show amp + (k + 1) = amp + 1 + k by omega] at this)
      refine ⟨[⟨wrap32 (start.x + i), y⟩] ++ more, ?_⟩
      rw [hfirst, hw, hmore]
      have e1 : i + step + (r : Int) * step = i + ((r + 1 : Nat) : Int) * step := hshift r
      have e2 : amp + 1 + r = amp + (r + 1) := by omega
      rw [e1, e2, List.append_assoc]

/-- A block of `71585` samples, of which the first `71583` are zero, drawn from
`(0, 0)` over the width `INT_MAX` with the amplitude 0: the step is `30000`,
the loop has `⌈W / step⌉ = 71583` iterations before the counter overflows, and
it then goes on from the counter `-2147477296` with the iterator at index
`71583`. -/
theorem wave_points_long_block (tail : List Sample) (ht : tail.length = 2) :
    wave_step 2147483647 (List.replicate 71583 (Float32.finite 0) ++ tail).length = 30000 ∧
    ⌈((2147483647 : Int) : ℚ) / ((30000 : Int) : ℚ)⌉ = 71583 ∧
    ∃ more, wave_points (List.replicate 71583 (Float32.finite 0) ++ tail) ⟨0, 0⟩ 2147483647 0 =
      wave_loop ⟨0, 0⟩ 2147483647 0 30000 (List.replicate 71583 (Float32.finite 0) ++ tail)
        3 (-2147477296) 71583 more := by
  have hlen : (List.replicate 71583 (Float32.finite 0) ++ tail).length = 71585 := by
    rw [List.length_append, List.length_replicate, ht]
  have hstep : wave_step 2147483647 (List.replicate 71583 (Float32.finite 0) ++ tail).length
      = 30000 := by
    rw [hlen]
    exact wave_step_eq_of 2147483647 71585 30000 (by norm_num) (by norm_num) (by norm_num)
  have hcount : ⌈((2147483647 : Int) : ℚ) / ((30000 : Int) : ℚ)⌉ = 71583 :=
    ceil_div_eq_of 2147483647 30000 71583 (by norm_num) (by norm_num) (by norm_num)
  refine ⟨hstep, hcount, ?_⟩
  have hne : (List.replicate 71583 (Float32.finite 0) ++ tail).isEmpty = false := by
    cases hb : List.replicate 71583 (Float32.finite 0) ++ tail with
    | nil => rw [hb] at hlen; simp at hlen
    | cons a t => rfl
  have hpts : wave_points (List.replicate 71583 (Float32.finite 0) ++ tail) ⟨0, 0⟩ 2147483647 0 =
      wave_loop ⟨0, 0⟩ 2147483647 0 30000 (List.replicate 71583 (Float32.finite 0) ++ tail)
        (3 + 71583) 0 0 [] := by
    have hstep2 : wave_step 2147483647 71585 = 30000 := by rw [← hlen]; exact hstep
    simp only [wave_points, hne, Bool.not_false, if_true, hlen, hstep2]
  have hrow : wave_row 0 (.finite 0) 0 = some 0 :=
    wave_row_zero 0 0 (by norm_num) (by norm_num) (by norm_num) (by norm_num)
  have hget : ∀ k : Nat, k < 71583 →
      (List.replicate 71583 (Float32.finite 0) ++ tail).getD (0 + k) (.finite 0) = .finite 0 := by
    intro k hk
    rw [Nat.zero_add, List.getD_eq_getElem?_getD,
      List.getElem?_append_left (by rw [List.length_replicate]; exact hk),
      List.getElem?_replicate_of_lt hk]
    rfl
  obtain ⟨more, hmore⟩ := wave_loop_front ⟨0, 0⟩ 2147483647 0 30000
    (List.replicate 71583 (Float32.finite 0) ++ tail) 71583 3 0 0 []
    (by intro k hk; omega) (by rw [hlen]; norm_num) (by norm_num) (by norm_num)
    (by intro k hk; omega)
    (by intro k hk; rw [hget k hk, hrow]; rfl)
  have hw : wrap32 (0 + ((71583 : Nat) : Int) * 30000) = -2147477296 := by decide
  rw [hw] at hmore
  exact ⟨[] ++ more, by rw [hpts, hmore]⟩

/-- The long block with a NaN at index `71583`: after the counter overflow the
loop reads this sample, whose row is undefined. -/
theorem wave_points_long_block_nan :
    wave_points (List.replicate 71583 (Float32.finite 0) ++ [.nan, .finite 0]) ⟨0, 0⟩
      2147483647 0 = .error .castUndefined := by
  obtain ⟨-, -, more, hmore⟩ := wave_points_long_block [.nan, .finite 0] rfl
  rw [hmore]
  have hget : (List.replicate 71583 (Float32.finite 0) ++ [.nan, .finite 0])[71583]? =
      some .nan := by
    rw [List.getElem?_append_right (by rw [List.length_replicate]), List.length_replicate]
    rfl
  exact wave_loop_cast_fault _ _ _ _ _ 2 _ _ _ .nan (by norm_num) hget (wave_row_nan 0 0)

/-- The long block with zero samples throughout: after the counter overflow the
loop reads the samples at the indices `71583` and `71584` and then reads past
the end. -/
theorem wave_points_long_block_zero :
    wave_points (List.replicate 71583 (Float32.finite 0) ++ [.finite 0, .finite 0]) ⟨0, 0⟩
      2147483647 0 = .error .readPastEnd := by
  obtain ⟨-, -, more, hmore⟩ := wave_points_long_block [.finite 0, .finite 0] rfl
  rw [hmore]
  have hrow : wave_row 0 (.finite 0) 0 = some 0 :=
    wave_row_zero 0 0 (by norm_num) (by norm_num) (by norm_num) (by norm_num)
  have hget0 : (List.replicate 71583 (Float32.finite 0) ++ [.finite 0, .finite 0])[71583]? =
      some (.finite 0) := by
    rw [List.getElem?_append_right (by rw [List.length_replicate]), List.length_replicate]
    rfl
  have hget1 : (List.replicate 71583 (Float32.finite 0) ++ [.finite 0, .finite 0])[71583 + 1]? =
      some (.finite 0) := by
    rw [List.getElem?_append_right (by rw [List.length_replicate]; omega),
      List.length_replicate]
    rfl
  have hget2 : (List.replicate 71583 (Float32.finite 0) ++ [.finite 0, .finite 0])[71583 + 1 + 1]?
      = none := by
    rw [List.getElem?_append_right (by rw [List.length_replicate]; omega),
      List.length_replicate]
    rfl
  have w1 : wrap32 (-2147477296 + 30000) = -2147447296 := by decide
  have w2 : wrap32 (-2147447296 + 30000) = -2147417296 := by decide
  rw [wave_loop_step _ _ _ _ _ 2 _ _ _ (.finite 0) 0 (by norm_num) hget0 hrow, w1,
    wave_loop_step _ _ _ _ _ 1 _ _ _ (.finite 0) 0 (by norm_num) hget1 hrow, w2,
    wave_loop_past_end _ _ _ _ _ 0 _ _ _ (by norm_num) hget2]

/-- Two samples drawn from `(INT_MAX, 0)` over the width 2: the second column
wraps to `INT_MIN`. -/
theorem wave_points_column_wrap :
    wave_points [.finite 0, .finite 0] ⟨2147483647, 0⟩ 2 0 =
      .ok [⟨2147483647, 0⟩, ⟨-2147483648, 0⟩] := by
  have hstep : wave_step 2 2 = 1 := wave_step_eq_of 2 2 1 (by norm_num) (by norm_num) (by norm_num)
  have hcount : ⌈((2 : Int) : ℚ) / ((1 : Int) : ℚ)⌉ = 2 :=
    ceil_div_eq_of 2 1 2 (by norm_num) (by norm_num) (by norm_num)
  have hrow : wave_row 0 (.finite 0) 0 = some 0 :=
    wave_row_zero 0 0 (by norm_num) (by norm_num) (by norm_num) (by norm_num)
  have hz : ∀ k, [Float32.finite 0, .finite 0].getD k (.finite 0) = .finite 0 := by
    intro k
    rcases k with _ | _ | k <;> rfl
  have h := (wave_points_eq [.finite 0, .finite 0] ⟨2147483647, 0⟩ 2 0 (by simp) (by norm_num)
    (wave_counter_in_range 2 2 (by norm_num) (by norm_num) (by norm_num))).1
    (by intro k _; simp only [hz, hrow]; rfl)
  simp only [List.length_cons, List.length_nil, Nat.reduceAdd, hstep, hcount, hz, hrow] at h
  rw [h]
  have h2 : Int.toNat 2 = 2 := rfl
  have hr : List.range 2 = [0, 1] := rfl
  have w0 : wrap32 (2147483647 + ((0 : Nat) : Int) * 1) = 2147483647 := by decide
  have w1 : wrap32 (2147483647 + ((1 : Nat) : Int) * 1) = -2147483648 := by decide
  simp only [h2, hr, List.map_cons, List.map_nil, w0, w1, Option.getD_some]

/-- The one sample `1e10f` drawn over the width 1 with the baseline 300 and the
amplitude 600: the `(int)` cast of the row is undefined. -/
theorem wave_points_cast_undefined :
    wave_points [.finite 10000000000] ⟨0, 300⟩ 1 600 = .error .castUndefined := by
  have hstep : wave_step 1 1 = 1 := wave_step_eq_of 1 1 1 (by norm_num) (by norm_num) (by norm_num)
  have hcount : ⌈((1 : Int) : ℚ) / ((1 : Int) : ℚ)⌉ = 1 :=
    ceil_div_eq_of 1 1 1 (by norm_num) (by norm_num) (by norm_num)
  have h := (wave_points_eq [.finite 10000000000] ⟨0, 300⟩ 1 600 (by simp) (by norm_num)
    (by simp only [List.length_cons, List.length_nil, Nat.reduceAdd, hstep, hcount]
        norm_num)).2
  simp only [List.length_cons, List.length_nil, Nat.reduceAdd, hstep, hcount] at h
  apply h
  intro hall
  have h0 := hall 0 (by decide)
  have hget : [Float32.finite 10000000000].getD 0 (.finite 0) = .finite 10000000000 := rfl
  rw [hget, wave_row_out_of_range] at h0
  exact absurd h0 (by decide)

/-! ## The claims -/

/-- C1, as the code has it, at a concrete input: one `copy_data` call with a
non-null `data`, `channels = 65536` and `frames = 65536`. The exact product is
`4294967296`, the `int` product is `0`, and the stored block has no value. -/
theorem copy_data_count_overflow :
    (copy_data_seq Visualizer.initial [⟨some fun _ => .finite 1, 65536, 65536⟩]).map
      (·.packet_buffer.length) = some 0 ∧
    (65536 : Int) * 65536 = 4294967296 := by
  constructor
  · have hw : wrap32 (65536 * 65536) = 0 := by decide
    simp only [copy_data_seq, copy_data, hw, le_refl, if_true, Int.toNat_zero, List.range_zero,
      List.map_nil, Option.map_some', List.length_nil]
  · norm_num

/-- C1, amended: after a non-empty sequence of `copy_data` calls, each with a
non-null `data`, `channels ≥ 0`, `frames ≥ 0` and `channels * frames ≤ INT_MAX`,
the sequence completes and the stored block (`packet_buffer`, which `draw_wave`
reads) is exactly the block of the last call: it has `channels * frames`
values, the value at index `k` is `data[k]`, and it is what `draw_wave` draws
from, whatever the initial state and the earlier calls were. -/
theorem copy_data_seq_last_block (self : Visualizer) (calls : List CopyCall)
    (hne : calls ≠ [])
    (hargs : ∀ c ∈ calls, c.data ≠ none ∧ 0 ≤ c.channels ∧ 0 ≤ c.frames ∧
      c.channels * c.frames ≤ 2147483647) :
    ∃ s mem, copy_data_seq self calls = some s ∧
      (calls.getLast hne).data = some mem ∧
      s.packet_buffer =
        (List.range ((calls.getLast hne).channels * (calls.getLast hne).frames).toNat).map mem ∧
      (s.packet_buffer.length : Int) = (calls.getLast hne).channels * (calls.getLast hne).frames ∧
      (∀ k, k < s.packet_buffer.length → s.packet_buffer[k]? = some (mem k)) ∧
      ∀ start length pixel_amplitude color,
        draw_wave s start length pixel_amplitude color =
          draw_wave { self with packet_buffer :=
            (List.range ((calls.getLast hne).channels * (calls.getLast hne).frames).toNat).map mem }
            start length pixel_amplitude color := by
  have hwrap : ∀ c ∈ calls, wrap32 (c.channels * c.frames) = c.channels * c.frames := by
    intro c hc
    obtain ⟨-, h1, h2, h3⟩ := hargs c hc
    exact wrap32_of_range _ (by have := mul_nonneg h1 h2; omega) h3
  have hsplit := List.dropLast_append_getLast hne
  set last := calls.getLast hne with hlast
  have hmem : last ∈ calls := List.getLast_mem hne
  obtain ⟨hdata, hch, hfr, -⟩ := hargs last hmem
  have hfront : ∀ c ∈ calls.dropLast, c.data = none ∨ 0 ≤ wrap32 (c.channels * c.frames) := by
    intro c hc
    have hc2 : c ∈ calls := List.dropLast_subset calls hc
    rw [hwrap c hc2]
    exact Or.inr (mul_nonneg (hargs c hc2).2.1 (hargs c hc2).2.2.1)
  obtain ⟨s0, hs0⟩ := copy_data_seq_defined self calls.dropLast hfront
  cases hd : last.data with
  | none => exact absurd hd hdata
  | some mem =>
    have hprod : 0 ≤ last.channels * last.frames := mul_nonneg hch hfr
    refine ⟨{ s0 with packet_buffer :=
      (List.range (last.channels * last.frames).toNat).map mem }, mem, ?_, rfl, rfl, ?_, ?_, ?_⟩
    · rw [← hsplit, copy_data_seq_append, hs0]
      simp only [Option.some_bind, copy_data, ← hlast, hd, hwrap last hmem, hprod, if_true]
    · simp only [List.length_map, List.length_range]
      exact Int.toNat_of_nonneg hprod
    · intro k hk
      simp only [List.length_map, List.length_range] at hk
      simp [List.getElem?_map, List.getElem?_range hk]
    · intro start length pixel_amplitude color
      rfl

theorem copy_data_seq_last_block_witness :
    ∃ s, copy_data_seq Visualizer.initial
        [⟨some fun k => .finite k, 1, 3⟩, ⟨some fun k => .finite ((k : ℚ) / 2), 2, 2⟩] = some s ∧
      s.packet_buffer = [.finite 0, .finite (1 / 2), .finite 1, .finite (3 / 2)] := by
  obtain ⟨s, mem, hs, hmem, hbuf, -⟩ := copy_data_seq_last_block Visualizer.initial
    [⟨some fun k => .finite k, 1, 3⟩, ⟨some fun k => .finite ((k : ℚ) / 2), 2, 2⟩] (by simp)
    (by intro c hc; simp at hc; rcases hc with rfl | rfl <;> simp)
  refine ⟨s, hs, ?_⟩
  simp only [List.getLast_cons_cons, List.getLast_singleton, Option.some.injEq] at hmem
  subst hmem
  rw [hbuf]
  have h4 : Int.toNat 4 = 4 := rfl
  have hr : List.range 4 = [0, 1, 2, 3] := rfl
  norm_num [h4, hr]

/-- C2, as the code has it, at a concrete input: a `copy_data` call with a
non-null `data`, `channels = 65536` and `frames = 65536` stores the empty
block, although `data` is not null and `channels * frames` is not `0`. -/
theorem copy_data_empty_nonzero_count :
    (copy_data Visualizer.initial (some fun _ => .finite 1) 65536 65536).map
      (·.packet_buffer) = some [] ∧
    ¬ ((some fun _ : Nat => Float32.finite 1) = none ∨ (65536 : Int) * 65536 = 0) := by
  constructor
  · have hw : wrap32 (65536 * 65536) = 0 := by decide
    simp only [copy_data, hw, le_refl, if_true, Int.toNat_zero, List.range_zero, List.map_nil,
      Option.map_some']
  · simp

/-- C2, amended: silence is the empty block. A freshly constructed `Visualizer`
stores the empty block; a `copy_data` call with a null `data` always completes
and stores the empty block, whatever `channels`, `frames` and the previous
block are; and a `copy_data` call completes with the empty block stored if and
only if `data` is null or the `int` product `channels * frames` (the product
reduced modulo `2 ^ 32` into the `int` range) is `0`. When the exact product is
an `int`, this is `channels * frames = 0`. -/
theorem copy_data_empty_iff :
    Visualizer.initial.packet_buffer = [] ∧
    (∀ (self : Visualizer) (channels frames : Int),
      (copy_data self none channels frames).map (·.packet_buffer) = some []) ∧
    (∀ (self : Visualizer) (data : Option (Nat → Sample)) (channels frames : Int),
      (copy_data self data channels frames).map (·.packet_buffer) = some [] ↔
        (data = none ∨ wrap32 (channels * frames) = 0)) ∧
    (∀ (self : Visualizer) (data : Option (Nat → Sample)) (channels frames : Int),
      -2147483648 ≤ channels * frames → channels * frames ≤ 2147483647 →
      ((copy_data self data channels frames).map (·.packet_buffer) = some [] ↔
        (data = none ∨ channels * frames = 0))) := by
  have hiff : ∀ (self : Visualizer) (data : Option (Nat → Sample)) (channels frames : Int),
      (copy_data self data channels frames).map (·.packet_buffer) = some [] ↔
        (data = none ∨ wrap32 (channels * frames) = 0) := by
    intro self data channels frames
    cases data with
    | none => simp [copy_data]
    | some mem =>
      by_cases h : 0 ≤ wrap32 (channels * frames)
      · simp only [copy_data, h, if_true, Option.map_some', Option.some.injEq,
          List.map_eq_nil_iff, List.range_eq_nil, false_or, reduceCtorEq]
        omega
      · have hne : wrap32 (channels * frames) ≠ 0 := by omega
        simp [copy_data, h, hne]
  refine ⟨rfl, fun _ _ _ => rfl, hiff, ?_⟩
  intro self data channels frames h1 h2
  rw [hiff, wrap32_of_range _ h1 h2]

theorem copy_data_empty_iff_witness :
    (copy_data { packet_buffer := [.finite 1] } (some fun _ => .finite 1) 2 0).map
      (·.packet_buffer) = some [] :=
  ((copy_data_empty_iff.2.2.2 { packet_buffer := [.finite 1] } (some fun _ => .finite 1) 2 0
    (by norm_num) (by norm_num)).mpr (Or.inr (by norm_num)))

/-- C3, as the code has it, at a concrete input: with an empty block, the start
point `(INT_MAX, 0)` and the width 2, the second point is at
`x = -2147483648`, not at `x0 + W - 1 = 2147483648`. -/
theorem draw_wave_silence_overflow :
    wave_points [] ⟨2147483647, 0⟩ 2 0 = .ok [⟨2147483647, 0⟩, ⟨-2147483648, 0⟩] ∧
    (-2147483648 : Int) ≠ 2147483647 + 2 - 1 := by
  constructor
  · rw [wave_points_silence]
    have hw : wrap32 (2147483647 + 2 - 1) = -2147483648 := by decide
    simp only [hw]
  · norm_num

/-- C3, amended: with an empty stored block `draw_wave` draws exactly two
points, `(x0, y0)` followed by `(x, y0)`, for every start point, width `W` and
amplitude, where `x` is `x0 + W - 1` reduced modulo `2 ^ 32` into the `int`
range; `x = x0 + W - 1` whenever `x0 + W - 1` is an `int`. The amplitude does
not occur in the result. -/
theorem draw_wave_silence (self : Visualizer) (start : SDL_Point) (length pixel_amplitude : Int)
    (color : SDL_Color) (hempty : self.packet_buffer = []) :
    wave_points self.packet_buffer start length pixel_amplitude =
      .ok [⟨start.x, start.y⟩, ⟨wrap32 (start.x + length - 1), start.y⟩] ∧
    draw_wave self start length pixel_amplitude color =
      .ok [.lockPacketBuffer, .unlockPacketBuffer,
        .SetRenderDrawColor color.r color.g color.b color.a,
        .RenderDrawLines [⟨start.x, start.y⟩, ⟨wrap32 (start.x + length - 1), start.y⟩]] ∧
    (-2147483648 ≤ start.x + length - 1 → start.x + length - 1 ≤ 2147483647 →
      wave_points self.packet_buffer start length pixel_amplitude =
        .ok [⟨start.x, start.y⟩, ⟨start.x + length - 1, start.y⟩]) := by
  have hp : wave_points self.packet_buffer start length pixel_amplitude =
      .ok [⟨start.x, start.y⟩, ⟨wrap32 (start.x + length - 1), start.y⟩] := by
    rw [hempty, wave_points_silence]
  refine ⟨hp, draw_wave_of_points self start length pixel_amplitude color _ hp (by simp), ?_⟩
  intro h1 h2
  rw [hp, wrap32_of_range _ h1 h2]

theorem draw_wave_silence_witness :
    draw_wave Visualizer.initial ⟨3, 300⟩ 1000 600 ⟨255, 255, 255, 255⟩ =
      .ok [.lockPacketBuffer, .unlockPacketBuffer, .SetRenderDrawColor 255 255 255 255,
        .RenderDrawLines [⟨3, 300⟩, ⟨1002, 300⟩]] := by
  have h := (draw_wave_silence Visualizer.initial ⟨3, 300⟩ 1000 600 ⟨255, 255, 255, 255⟩ rfl).2.1
  have hw : wrap32 (3 + 1000 - 1) = 1002 := by decide
  simpa only [hw] using h

/-- C4, as the code has it, at concrete inputs. The block of the one sample
`0.7f = 11744051 / 16777216`, drawn from `(0, 0)` over the width 1 with the
amplitude 10, gives the row 7, while `trunc (y0 + sample * A)` taken exactly
is 6. The one sample `1e10f` with the baseline 300 and the amplitude 600 gives
no point: the `(int)` cast is undefined. Two samples over the width `INT_MAX`
give no point list: the loop counter overflows and the loop reads past the end.
Two samples drawn from `(INT_MAX, 0)` over the width 2 have the second column
`INT_MIN`, not `x0 + step`. -/
theorem draw_wave_row_rounded :
    (wave_points [.finite (11744051 / 16777216)] ⟨0, 0⟩ 1 10 = .ok [⟨0, 7⟩] ∧
      truncToInt (((0 : Int) : ℚ) + 11744051 / 16777216 * ((10 : Int) : ℚ)) = 6) ∧
    wave_points [.finite 10000000000] ⟨0, 300⟩ 1 600 = .error .castUndefined ∧
    wave_points [.finite 0, .finite 0] ⟨0, 0⟩ 2147483647 0 = .error .readPastEnd ∧
    wave_points [.finite 0, .finite 0] ⟨2147483647, 0⟩ 2 0 =
      .ok [⟨2147483647, 0⟩, ⟨-2147483648, 0⟩] := by
  refine ⟨⟨?_, ?_⟩, wave_points_cast_undefined,
    wave_points_overflow ⟨0, 0⟩ 0 (by norm_num) (by norm_num) (by norm_num) (by norm_num),
    wave_points_column_wrap⟩
  · have hstep : wave_step 1 1 = 1 := wave_step_eq_of 1 1 1 (by norm_num) (by norm_num) (by norm_num)
    have hcount : ⌈((1 : Int) : ℚ) / ((1 : Int) : ℚ)⌉ = 1 :=
      ceil_div_eq_of 1 1 1 (by norm_num) (by norm_num) (by norm_num)
    have h := (wave_points_eq [.finite (11744051 / 16777216)] ⟨0, 0⟩ 1 10 (by simp) (by norm_num)
      (by simp only [List.length_cons, List.length_nil, Nat.reduceAdd, hstep, hcount]
          norm_num)).1
    simp only [List.length_cons, List.length_nil, Nat.reduceAdd, hstep, hcount] at h
    have h1 : Int.toNat 1 = 1 := rfl
    have hr : List.range 1 = [0] := rfl
    have hw : wrap32 (0 + ((0 : Nat) : Int) * 1) = 0 := by decide
    have hw0 : wrap32 0 = 0 := by decide
    simp only [h1, hr] at h
    rw [h (by
      intro k hk
      have hk0 : k = 0 := by omega
      subst hk0
      simp [wave_row_seven_tenths])]
    simp [wave_row_seven_tenths, hw, hw0]
  · have hfloor : ⌊((0 : Int) : ℚ) + 11744051 / 16777216 * ((10 : Int) : ℚ)⌋ = 6 := by
      rw [Int.floor_eq_iff]
      constructor <;> norm_num
    unfold truncToInt
    rw [if_pos (by norm_num), hfloor]

/-- C4, amended: for a block of `N ≥ 1` samples and a width `W ≥ 1`, with
`step = ⌈W / N⌉`, when the loop counter does not overflow
(`⌈W / step⌉ * step ≤ INT_MAX`), the columns `x0 .. x0 + W - 1` are `int`s and
the row `rows k = (int)(y0 + sample[k] * A)`, evaluated in `float` arithmetic,
is defined for each `k < ⌈W / step⌉`, `draw_wave` collects exactly the points
`(x0 + k * step, rows k)` for `k = 0, …, ⌈W / step⌉ - 1`, in this order, and
passes them to `SDL_RenderDrawLines`. -/
theorem draw_wave_points (self : Visualizer) (start : SDL_Point) (length pixel_amplitude : Int)
    (color : SDL_Color) (rows : Nat → Int)
    (hN : 1 ≤ self.packet_buffer.length) (hW : 1 ≤ length)
    (hmax : ⌈(length : ℚ) / (wave_step length self.packet_buffer.length : ℚ)⌉
      * wave_step length self.packet_buffer.length ≤ 2147483647)
    (hx1 : -2147483648 ≤ start.x) (hx2 : start.x + length - 1 ≤ 2147483647)
    (hrows : ∀ k : Nat,
      k < ⌈(length : ℚ) / (wave_step length self.packet_buffer.length : ℚ)⌉.toNat →
      wave_row start.y (self.packet_buffer.getD k (.finite 0)) pixel_amplitude
        = some (rows k)) :
    wave_points self.packet_buffer start length pixel_amplitude =
      .ok ((List.range
          ⌈(length : ℚ) / (wave_step length self.packet_buffer.length : ℚ)⌉.toNat).map
        fun (k : Nat) =>
          ⟨start.x + (k : Int) * wave_step length self.packet_buffer.length, rows k⟩) ∧
    draw_wave self start length pixel_amplitude color =
      .ok [.lockPacketBuffer, .unlockPacketBuffer,
        .SetRenderDrawColor color.r color.g color.b color.a,
        .RenderDrawLines ((List.range
            ⌈(length : ℚ) / (wave_step length self.packet_buffer.length : ℚ)⌉.toNat).map
          fun (k : Nat) =>
            ⟨start.x + (k : Int) * wave_step length self.packet_buffer.length, rows k⟩)] := by
  obtain ⟨-, -, hr1, -⟩ :=
    wave_loop_from_start self.packet_buffer start length pixel_amplitude hN hW hmax
  have hs := wave_step_pos length self.packet_buffer.length hW hN
  have hs0 : 0 < wave_step length self.packet_buffer.length := by omega
  have h := (wave_points_eq self.packet_buffer start length pixel_amplitude hN hW hmax).1
    (by intro k hk; rw [hrows k hk]; rfl)
  have hp : wave_points self.packet_buffer start length pixel_amplitude =
      .ok ((List.range
          ⌈(length : ℚ) / (wave_step length self.packet_buffer.length : ℚ)⌉.toNat).map
        fun (k : Nat) =>
          ⟨start.x + (k : Int) * wave_step length self.packet_buffer.length, rows k⟩) := by
    rw [h]
    congr 1
    apply List.map_congr_left
    intro k hk
    have hk' := List.mem_range.mp hk
    have hlt : (k : Int) * wave_step length self.packet_buffer.length < length :=
      (lt_ceil_div_iff length _ k hs0).mp (by omega)
    have hk0 : 0 ≤ (k : Int) * wave_step length self.packet_buffer.length :=
      mul_nonneg (by omega) hs0.le
    rw [hrows k hk', wrap32_of_range _ (by omega) (by omega)]
    rfl
  refine ⟨hp, draw_wave_of_points self start length pixel_amplitude color _ hp ?_⟩
  intro hnil
  have hlen := congrArg List.length hnil
  simp only [List.length_map, List.length_range, List.length_nil] at hlen
  omega

theorem draw_wave_points_witness :
    wave_step 8 4 = 2 ∧
    wave_points [.finite 0, .finite 1, .finite (-1), .finite (1 / 2)] ⟨0, 100⟩ 8 10 =
      .ok [⟨0, 100⟩, ⟨2, 110⟩, ⟨4, 90⟩, ⟨6, 105⟩] := by
  have hstep : wave_step 8 4 = 2 := wave_step_eq_of 8 4 2 (by norm_num) (by norm_num) (by norm_num)
  have hcount : ⌈((8 : Int) : ℚ) / ((2 : Int) : ℚ)⌉ = 4 :=
    ceil_div_eq_of 8 2 4 (by norm_num) (by norm_num) (by norm_num)
  have r0 : wave_row 100 (.finite 0) 10 = some 100 := by
    simpa using wave_row_exact 100 0 10 0 (by norm_num) (by norm_num) (by norm_num)
      (by norm_num) (by norm_num) (by norm_num) (by norm_num) (by norm_num) (by norm_num)
  have r1 : wave_row 100 (.finite 1) 10 = some 110 := by
    simpa using wave_row_exact 100 1 10 10 (by norm_num) (by norm_num) (by norm_num)
      (by norm_num) (by norm_num) (by norm_num) (by norm_num) (by norm_num) (by norm_num)
  have r2 : wave_row 100 (.finite (-1)) 10 = some 90 := by
    simpa using wave_row_exact 100 (-1) 10 (-10) (by norm_num) (by norm_num) (by norm_num)
      (by norm_num) (by norm_num) (by norm_num) (by norm_num) (by norm_num) (by norm_num)
  have r3 : wave_row 100 (.finite (1 / 2)) 10 = some 105 := by
    simpa using wave_row_exact 100 (1 / 2) 10 5 (by norm_num) (by norm_num) (by norm_num)
      (by norm_num) (by norm_num) (by norm_num) (by norm_num) (by norm_num) (by norm_num)
  refine ⟨hstep, ?_⟩
  have h := (draw_wave_points
    { packet_buffer := [.finite 0, .finite 1, .finite (-1), .finite (1 / 2)] } ⟨0, 100⟩ 8 10
    ⟨255, 255, 255, 255⟩ (fun k => [100, 110, 90, 105].getD k 0) (by simp) (by norm_num)
    (by simp only [List.length_cons, List.length_nil, Nat.reduceAdd, hstep, hcount]
        norm_num)
    (by norm_num) (by norm_num)
    (by
      simp only [List.length_cons, List.length_nil, Nat.reduceAdd, hstep, hcount]
      intro k hk
      have hk4 : k < 4 := hk
      interval_cases k
      · exact r0
      · exact r1
      · exact r2
      · exact r3)).1
  simp only [List.length_cons, List.length_nil, Nat.reduceAdd, hstep, hcount] at h
  rw [h]
  have h4 : Int.toNat 4 = 4 := rfl
  have hr : List.range 4 = [0, 1, 2, 3] := rfl
  simp only [h4, hr]
  norm_num

/-- C5, as the code has it, at a concrete input: two samples drawn over the
width `INT_MAX = 2147483647`. The step is `2 ^ 30`, the counter `i` overflows to
`-2147483648` after the second point, the loop goes on and reads the sample at
index 2, past the end of the block. -/
theorem draw_wave_reads_past_end :
    wave_points [.finite 0, .finite 0] ⟨0, 0⟩ 2147483647 0 = .error .readPastEnd :=
  wave_points_overflow ⟨0, 0⟩ 0 (by norm_num) (by norm_num) (by norm_num) (by norm_num)

/-- C5, amended: for `N ≥ 1` samples and `W ≥ 1`, when the loop counter does not
overflow (`⌈W / step⌉ * step ≤ INT_MAX`, with `step = ⌈W / N⌉`), the point loop
does not read past the end of the block. The number of iterations `⌈W / step⌉`
equals `min (⌈W / step⌉, N)`, so it is at most `N`; the loop ends with its
points or at the first row whose cast is undefined, never with a read past the
end; when it ends with its points there are `⌈W / step⌉` of them and the point
at position `k` is computed from the sample at index `k`, which exists: the
samples are read front to back, one per emitted point. -/
theorem draw_wave_reads_in_bounds (buf : List Sample) (start : SDL_Point)
    (length pixel_amplitude : Int) (hN : 1 ≤ buf.length) (hW : 1 ≤ length)
    (hmax : ⌈(length : ℚ) / (wave_step length buf.length : ℚ)⌉ * wave_step length buf.length
      ≤ 2147483647) :
    ⌈(length : ℚ) / (wave_step length buf.length : ℚ)⌉.toNat ≤ buf.length ∧
    ⌈(length : ℚ) / (wave_step length buf.length : ℚ)⌉ =
      min ⌈(length : ℚ) / (wave_step length buf.length : ℚ)⌉ (buf.length : Int) ∧
    ((∃ points, wave_points buf start length pixel_amplitude = .ok points) ∨
      wave_points buf start length pixel_amplitude = .error .castUndefined) ∧
    ((∀ k : Nat, k < ⌈(length : ℚ) / (wave_step length buf.length : ℚ)⌉.toNat →
        (wave_row start.y (buf.getD k (.finite 0)) pixel_amplitude).isSome = true) →
      ∃ points, wave_points buf start length pixel_amplitude = .ok points) ∧
    ∀ points, wave_points buf start length pixel_amplitude = .ok points →
      points.length = ⌈(length : ℚ) / (wave_step length buf.length : ℚ)⌉.toNat ∧
      ∀ k, k < points.length → ∃ sample row, buf[k]? = some sample ∧
        wave_row start.y sample pixel_amplitude = some row ∧
        points[k]? = some ⟨wrap32 (start.x + (k : Int) * wave_step length buf.length), row⟩ := by
  obtain ⟨-, hcN, hc1, -⟩ := wave_loop_from_start buf start length pixel_amplitude hN hW hmax
  obtain ⟨hok, hfault⟩ := wave_points_eq buf start length pixel_amplitude hN hW hmax
  have hmin : ⌈(length : ℚ) / (wave_step length buf.length : ℚ)⌉ =
      min ⌈(length : ℚ) / (wave_step length buf.length : ℚ)⌉ (buf.length : Int) := by
    rw [min_eq_left]
    omega
  refine ⟨hcN, hmin, ?_, fun h => ⟨_, hok h⟩, ?_⟩
  · by_cases h : ∀ k : Nat, k < ⌈(length : ℚ) / (wave_step length buf.length : ℚ)⌉.toNat →
        (wave_row start.y (buf.getD k (.finite 0)) pixel_amplitude).isSome = true
    · exact Or.inl ⟨_, hok h⟩
    · exact Or.inr (hfault h)
  · intro points hpoints
    by_cases h : ∀ k : Nat, k < ⌈(length : ℚ) / (wave_step length buf.length : ℚ)⌉.toNat →
        (wave_row start.y (buf.getD k (.finite 0)) pixel_amplitude).isSome = true
    · rw [hok h] at hpoints
      cases hpoints
      refine ⟨by simp, ?_⟩
      intro k hk
      simp only [List.length_map, List.length_range] at hk
      have hkN : k < buf.length := by omega
      have hget : buf.getD k (.finite 0) = buf[k] := by
        simp [List.getD_eq_getElem?_getD, List.getElem?_eq_getElem hkN]
      obtain ⟨row, hrow⟩ := Option.isSome_iff_exists.mp (h k hk)
      refine ⟨buf[k], row, List.getElem?_eq_getElem hkN, by rw [← hget]; exact hrow, ?_⟩
      rw [List.getElem?_map, List.getElem?_range hk]
      simp only [Option.map_some', hrow, Option.getD_some]
    · rw [hfault h] at hpoints
      cases hpoints

theorem draw_wave_reads_in_bounds_witness :
    ∃ points, wave_points [.finite 0, .finite 0, .finite 0] ⟨0, 300⟩ 1000 600 = .ok points ∧
      points.length ≤ 3 := by
  have hrow : wave_row 300 (.finite 0) 600 = some 300 :=
    wave_row_zero 300 600 (by norm_num) (by norm_num) (by norm_num) (by norm_num)
  obtain ⟨hle, -, -, hok, hpts⟩ :=
    draw_wave_reads_in_bounds [.finite 0, .finite 0, .finite 0] ⟨0, 300⟩ 1000 600 (by simp)
      (by norm_num) (wave_counter_in_range 1000 3 (by norm_num) (by norm_num) (by norm_num))
  obtain ⟨points, hp⟩ := hok (by
    intro k _
    have hz : [Float32.finite 0, .finite 0, .finite 0].getD k (.finite 0) = .finite 0 := by
      rcases k with _ | _ | _ | k <;> rfl
    simp only [hz, hrow]
    rfl)
  refine ⟨points, hp, ?_⟩
  rw [(hpts points hp).1]
  simpa using hle

/-- C6, the code at the failing input: a block of two samples drawn over a
width of 1000 gives the two points at `x = 0` and `x = 500`; the last point is
not at the last pixel column `x0 + W - 1 = 999`, so the trace covers half of
the width. -/
theorem draw_wave_last_point_short :
    wave_points [.finite 0, .finite 0] ⟨0, 300⟩ 1000 600 = .ok [⟨0, 300⟩, ⟨500, 300⟩] ∧
    (500 : Int) ≠ 0 + 1000 - 1 := by
  have hstep : wave_step 1000 2 = 500 :=
    wave_step_eq_of 1000 2 500 (by norm_num) (by norm_num) (by norm_num)
  have hcount : ⌈((1000 : Int) : ℚ) / ((500 : Int) : ℚ)⌉ = 2 :=
    ceil_div_eq_of 1000 500 2 (by norm_num) (by norm_num) (by norm_num)
  have hrow : wave_row 300 (.finite 0) 600 = some 300 :=
    wave_row_zero 300 600 (by norm_num) (by norm_num) (by norm_num) (by norm_num)
  have hz : ∀ k, [Float32.finite 0, .finite 0].getD k (.finite 0) = .finite 0 := by
    intro k
    rcases k with _ | _ | k <;> rfl
  have h := (wave_points_eq [.finite 0, .finite 0] ⟨0, 300⟩ 1000 600 (by simp) (by norm_num)
    (wave_counter_in_range 1000 2 (by norm_num) (by norm_num) (by norm_num))).1
    (by intro k _; simp only [hz, hrow]; rfl)
  simp only [List.length_cons, List.length_nil, Nat.reduceAdd, hstep, hcount, hz, hrow] at h
  refine ⟨?_, by norm_num⟩
  rw [h]
  have h2 : Int.toNat 2 = 2 := rfl
  have hr : List.range 2 = [0, 1] := rfl
  have w0 : wrap32 (0 + ((0 : Nat) : Int) * 500) = 0 := by decide
  have w1 : wrap32 (0 + ((1 : Nat) : Int) * 500) = 500 := by decide
  simp only [h2, hr, List.map_cons, List.map_nil, w0, w1, Option.getD_some]

/-- C7, as the code has it: ToggleFullscreen followed by Minimize leads from
the initial window state to a state with `mFullScreen` and `mMinimized` both
true, so the combination is reachable. -/
theorem fullscreen_minimized_reachable :
    (handle_events Visualizer.initial
      [.KEYDOWN .RETURN, .WINDOWEVENT .MINIMIZED 0 0]).mFullScreen = true ∧
    (handle_events Visualizer.initial
      [.KEYDOWN .RETURN, .WINDOWEVENT .MINIMIZED 0 0]).mMinimized = true := by
  constructor <;> rfl

/-- C7, amended: in every window state reached from the initial state by a
finite sequence of events in which each Minimize event arrives while
`mFullScreen` is false, `mFullScreen` and `mMinimized` are not both true. The
ordering Minimize then ToggleFullscreen is such a sequence and ends with
`mFullScreen = true`, `mMinimized = false`. -/
theorem fullscreen_minimized_exclusive (events : List SDL_Event)
    (hmin : ∀ before d1 d2 after, events = before ++ .WINDOWEVENT .MINIMIZED d1 d2 :: after →
      (handle_events Visualizer.initial before).mFullScreen = false) :
    ¬ ((handle_events Visualizer.initial events).mFullScreen = true ∧
      (handle_events Visualizer.initial events).mMinimized = true) ∧
    ∀ d1 d2, handle_events Visualizer.initial
        [.WINDOWEVENT .MINIMIZED d1 d2, .KEYDOWN .RETURN] =
      { mFullScreen := true, mMinimized := false } := by
  refine ⟨handle_events_not_both events Visualizer.initial (by simp [Visualizer.initial]) hmin, ?_⟩
  intro d1 d2
  rfl

theorem fullscreen_minimized_exclusive_witness :
    ¬ ((handle_events Visualizer.initial
        [.WINDOWEVENT .MINIMIZED 0 0, .KEYDOWN .RETURN]).mFullScreen = true ∧
      (handle_events Visualizer.initial
        [.WINDOWEVENT .MINIMIZED 0 0, .KEYDOWN .RETURN]).mMinimized = true) := by
  refine (fullscreen_minimized_exclusive [.WINDOWEVENT .MINIMIZED 0 0, .KEYDOWN .RETURN] ?_).1
  intro before d1 d2 after h
  cases before with
  | nil => rfl
  | cons b bs =>
    cases bs with
    | nil => simp at h
    | cons c cs =>
      cases cs with
      | nil => simp at h
      | cons _ _ => simp at h

/-- C8: a Return key-down toggles fullscreen. From `mFullScreen = false` it
sets `mFullScreen = true` and `mMinimized = false`; from `mFullScreen = true`
it sets `mFullScreen = false` and leaves `mMinimized` as it was. Width, height
and the stored block are unchanged in both cases, and two consecutive toggles
give back the original `mFullScreen`. -/
theorem handle_event_toggle_fullscreen (self : Visualizer) :
    (self.mFullScreen = false →
      (handle_event self (.KEYDOWN .RETURN)).1.mFullScreen = true ∧
      (handle_event self (.KEYDOWN .RETURN)).1.mMinimized = false) ∧
    (self.mFullScreen = true →
      (handle_event self (.KEYDOWN .RETURN)).1.mFullScreen = false ∧
      (handle_event self (.KEYDOWN .RETURN)).1.mMinimized = self.mMinimized) ∧
    (handle_event self (.KEYDOWN .RETURN)).1.window_width = self.window_width ∧
    (handle_event self (.KEYDOWN .RETURN)).1.window_height = self.window_height ∧
    (handle_event self (.KEYDOWN .RETURN)).1.packet_buffer = self.packet_buffer ∧
    (handle_event (handle_event self (.KEYDOWN .RETURN)).1 (.KEYDOWN .RETURN)).1.mFullScreen =
      self.mFullScreen := by
  cases h : self.mFullScreen <;> simp [handle_event, h]

theorem handle_event_toggle_fullscreen_witness :
    (handle_event { mMinimized := true } (.KEYDOWN .RETURN)).1.mFullScreen = true ∧
    (handle_event { mMinimized := true } (.KEYDOWN .RETURN)).1.mMinimized = false ∧
    (handle_event { mFullScreen := true, mMinimized := true } (.KEYDOWN .RETURN)).1.mFullScreen
      = false ∧
    (handle_event { mFullScreen := true, mMinimized := true } (.KEYDOWN .RETURN)).1.mMinimized
      = true :=
  ⟨((handle_event_toggle_fullscreen { mMinimized := true }).1 rfl).1,
   ((handle_event_toggle_fullscreen { mMinimized := true }).1 rfl).2,
   ((handle_event_toggle_fullscreen { mFullScreen := true, mMinimized := true }).2.1 rfl).1,
   ((handle_event_toggle_fullscreen { mFullScreen := true, mMinimized := true }).2.1 rfl).2⟩

/-- C9, as the code has it, at a concrete input: a block of two samples and a
queue that holds one resize event to the width `INT_MAX` and no quit event.
`update` does not return `true`: the render step reads past the end of the
block. -/
theorem update_render_fault :
    SDL_Event.QUIT ∉ [SDL_Event.WINDOWEVENT .SIZE_CHANGED 2147483647 600] ∧
    update { packet_buffer := [.finite 0, .finite 0] }
      [.WINDOWEVENT .SIZE_CHANGED 2147483647 600] = .error .readPastEnd := by
  refine ⟨by simp, ?_⟩
  rw [update_of_render { packet_buffer := [.finite 0, .finite 0] }
    [.WINDOWEVENT .SIZE_CHANGED 2147483647 600] (by simp) rfl]
  have hp : wave_points [.finite 0, .finite 0] ⟨0, 300⟩ 2147483647 600 = .error .readPastEnd :=
    wave_points_overflow ⟨0, 300⟩ 600 (by norm_num) (by norm_num) (by norm_num) (by norm_num)
  have hd := draw_wave_of_fault
    { window_width := 2147483647, window_height := 600,
      packet_buffer := [.finite 0, .finite 0] }
    ⟨0, 300⟩ 2147483647 600 ⟨255, 255, 255, 255⟩ .readPastEnd hp
  have hstate : handle_events { packet_buffer := [.finite 0, .finite 0] }
      [.WINDOWEVENT .SIZE_CHANGED 2147483647 600] =
      { window_width := 2147483647, window_height := 600,
        packet_buffer := [.finite 0, .finite 0] } := rfl
  have hdiv : Int.tdiv 600 2 = 300 := by decide
  simp only [hstate, hdiv, hd]

/-- C9, amended: when the queue of pending events contains a quit event,
`update` returns `false`; the events passed to `handle_event` are exactly those
before the first quit, in arrival order, the events after it stay pending, and
the only actions performed are those of the dispatched events: no clear, no
read of the sample buffer, no polyline draw. When the queue contains no quit
event and the render step is defined (the window is minimized once the events
have been handled, or `draw_wave` completes on the state they leave), every
event is dispatched in arrival order and `update` returns `true`. Whenever
`update` returns, it returns `false` if and only if the queue contains a quit
event. When there is no quit event, the window is not minimized and
`draw_wave` is undefined, `update` does not return. -/
theorem update_quit (self : Visualizer) (queue : List SDL_Event) :
    (SDL_Event.QUIT ∈ queue →
      ∃ t, update self queue = .ok t ∧ t.result = false ∧
        SDL_Event.QUIT ∉ t.dispatched ∧
        queue = t.dispatched ++ .QUIT :: t.pending ∧
        t.state = handle_events self t.dispatched ∧
        t.calls = handle_events_calls self t.dispatched ∧
        Action.RenderClear ∉ t.calls ∧ Action.lockPacketBuffer ∉ t.calls ∧
        ∀ points, Action.RenderDrawLines points ∉ t.calls) ∧
    (SDL_Event.QUIT ∉ queue →
      ((handle_events self queue).mMinimized = true ∨
        ∃ drawn, draw_wave (handle_events self queue)
          ⟨0, Int.tdiv (handle_events self queue).window_height 2⟩
          (handle_events self queue).window_width (handle_events self queue).window_height
          ⟨255, 255, 255, 255⟩ = .ok drawn) →
      ∃ t, update self queue = .ok t ∧ t.result = true ∧ t.dispatched = queue ∧
        t.pending = [] ∧ t.state = handle_events self queue) ∧
    (∀ t, update self queue = .ok t → (t.result = false ↔ SDL_Event.QUIT ∈ queue)) ∧
    (SDL_Event.QUIT ∉ queue → (handle_events self queue).mMinimized = false →
      ∀ fault, draw_wave (handle_events self queue)
          ⟨0, Int.tdiv (handle_events self queue).window_height 2⟩
          (handle_events self queue).window_width (handle_events self queue).window_height
          ⟨255, 255, 255, 255⟩ = .error fault →
        update self queue = .error fault) := by
  have hnotmem : SDL_Event.QUIT ∉ queue.takeWhile (· ≠ .QUIT) := by
    intro hmem
    have := List.mem_takeWhile_imp hmem
    simp at this
  have hminimized : SDL_Event.QUIT ∉ queue → (handle_events self queue).mMinimized = true →
      update self queue =
        .ok ⟨true, handle_events self queue, [], queue, handle_events_calls self queue⟩ := by
    intro hq hmin
    rw [update_of_minimized self queue hq hmin, poll_loop_no_quit self [] [] queue hq]
    simp
  refine ⟨?_, ?_, ?_, ?_⟩
  · intro hq
    refine ⟨_, update_of_quit self queue hq, ?_⟩
    rw [poll_loop_eq]
    refine ⟨by simp [hq], by simpa using hnotmem, ?_, by simp, by simp, ?_, ?_, ?_⟩
    · simp only [List.nil_append]
      rw [← dropWhile_not_quit_of_mem queue hq, List.takeWhile_append_dropWhile]
    · intro hmem
      rcases handle_events_calls_mem _ _ _ (by simpa using hmem) with h | ⟨_, h⟩ <;> cases h
    · intro hmem
      rcases handle_events_calls_mem _ _ _ (by simpa using hmem) with h | ⟨_, h⟩ <;> cases h
    · intro points hmem
      rcases handle_events_calls_mem _ _ _ (by simpa using hmem) with h | ⟨_, h⟩ <;> cases h
  · intro hq hdef
    by_cases hmin : (handle_events self queue).mMinimized = true
    · exact ⟨_, hminimized hq hmin, rfl, rfl, rfl, rfl⟩
    · rcases hdef with h | ⟨drawn, hdrawn⟩
      · exact absurd h hmin
      · have hu : update self queue = .ok ⟨true, handle_events self queue, [], queue,
            handle_events_calls self queue ++ [.SetRenderDrawColor 0 0 0 255, .RenderClear]
              ++ drawn ++ [.RenderPresent]⟩ := by
          rw [update_of_render self queue hq (by simpa using hmin), hdrawn]
        exact ⟨_, hu, rfl, rfl, rfl, rfl⟩
  · intro t ht
    by_cases hq : SDL_Event.QUIT ∈ queue
    · rw [update_of_quit self queue hq, poll_loop_eq] at ht
      cases ht
      simp [hq]
    · by_cases hmin : (handle_events self queue).mMinimized = true
      · rw [hminimized hq hmin] at ht
        cases ht
        simp [hq]
      · rw [update_of_render self queue hq (by simpa using hmin)] at ht
        split at ht
        · cases ht
        · cases ht
          simp [hq]
  · intro hq hmin fault hfault
    rw [update_of_render self queue hq hmin, hfault]

theorem update_quit_witness :
    update Visualizer.initial [.KEYDOWN .RETURN, .QUIT, .WINDOWEVENT .MINIMIZED 0 0] =
      .ok ⟨false, { mFullScreen := true }, [.WINDOWEVENT .MINIMIZED 0 0], [.KEYDOWN .RETURN],
        [.SetWindowFullscreen true]⟩ := by
  obtain ⟨t, ht, hres2, hnq, hsplit, hstate, hcalls, -⟩ :=
    (update_quit Visualizer.initial [.KEYDOWN .RETURN, .QUIT, .WINDOWEVENT .MINIMIZED 0 0]).1
      (by simp)
  rw [ht]
  obtain ⟨result, state, pending, dispatched, calls⟩ := t
  simp only at hsplit hcalls hres2 hstate hnq
  cases dispatched with
  | nil => simp at hsplit
  | cons d ds =>
    cases ds with
    | nil =>
      simp only [List.cons_append, List.nil_append, List.cons.injEq, true_and] at hsplit
      obtain ⟨hd, hp⟩ := hsplit
      subst hd hp hres2 hstate hcalls
      rfl
    | cons d2 ds2 =>
      simp only [List.cons_append, List.cons.injEq] at hsplit
      obtain ⟨-, hd2, -⟩ := hsplit
      subst hd2
      simp at hnq

/-- C10: when the queue holds no quit event and the window is minimized once
the events have been handled, `update` returns `true` and performs no action
beyond those of the dispatched events: no clear, no read of the sample buffer,
no polyline draw and no present of its own. With an empty queue and a
minimized window it performs no action at all and leaves the state unchanged. -/
theorem update_minimized (self : Visualizer) (queue : List SDL_Event)
    (hquit : SDL_Event.QUIT ∉ queue) (hmin : (handle_events self queue).mMinimized = true) :
    update self queue =
      .ok ⟨true, handle_events self queue, [], queue, handle_events_calls self queue⟩ ∧
    Action.RenderClear ∉ handle_events_calls self queue ∧
    Action.lockPacketBuffer ∉ handle_events_calls self queue ∧
    (∀ points, Action.RenderDrawLines points ∉ handle_events_calls self queue) ∧
    (queue = [] → update self queue = .ok ⟨true, self, [], [], []⟩) := by
  have hu : update self queue =
      .ok ⟨true, handle_events self queue, [], queue, handle_events_calls self queue⟩ := by
    rw [update_of_minimized self queue hquit hmin, poll_loop_no_quit self [] [] queue hquit]
    simp
  refine ⟨hu, ?_, ?_, ?_, ?_⟩
  · intro hmem
    rcases handle_events_calls_mem _ _ _ hmem with h | ⟨_, h⟩ <;> cases h
  · intro hmem
    rcases handle_events_calls_mem _ _ _ hmem with h | ⟨_, h⟩ <;> cases h
  · intro points hmem
    rcases handle_events_calls_mem _ _ _ hmem with h | ⟨_, h⟩ <;> cases h
  · intro hnil
    subst hnil
    rw [hu]
    rfl

theorem update_minimized_witness :
    update { mMinimized := true, packet_buffer := [.finite 1, .finite (-1)] } [] =
      .ok ⟨true, { mMinimized := true, packet_buffer := [.finite 1, .finite (-1)] }, [], [], []⟩ ∧
    update Visualizer.initial [.WINDOWEVENT .SIZE_CHANGED 2 400, .WINDOWEVENT .MINIMIZED 0 0] =
      .ok ⟨true, { window_width := 2, window_height := 400, mMinimized := true }, [],
        [.WINDOWEVENT .SIZE_CHANGED 2 400, .WINDOWEVENT .MINIMIZED 0 0], [.RenderPresent]⟩ :=
  ⟨(update_minimized { mMinimized := true, packet_buffer := [.finite 1, .finite (-1)] } []
      (by simp) rfl).2.2.2.2 rfl,
   (update_minimized Visualizer.initial
      [.WINDOWEVENT .SIZE_CHANGED 2 400, .WINDOWEVENT .MINIMIZED 0 0] (by simp) rfl).1⟩

/-- C11, as the code has it, at concrete inputs, each with an empty queue and a
window that is not minimized. With a block of two samples and the window width
0 the point loop is not entered, `points` stays empty and the render step
evaluates `points[0]`: it is undefined instead of a clear, a polyline draw and
a present. With a block of two samples and the window width `INT_MAX` the loop
counter overflows and the render step reads past the end of the block. -/
theorem update_render_empty_points :
    update { window_width := 0, packet_buffer := [.finite 1, .finite (-1)] } [] =
      .error .emptyPoints ∧
    update { window_width := 2147483647, packet_buffer := [.finite 0, .finite 0] } [] =
      .error .readPastEnd := by
  have hdiv : Int.tdiv 600 2 = 300 := by decide
  constructor
  · rw [update_of_render { window_width := 0, packet_buffer := [.finite 1, .finite (-1)] } []
      (by simp) rfl]
    have hp : wave_points [.finite 1, .finite (-1)] ⟨0, 300⟩ 0 600 = .ok [] :=
      wave_points_nonpos _ _ _ _ (by simp) (by norm_num)
    have hd := draw_wave_of_empty
      { window_width := 0, packet_buffer := [.finite 1, .finite (-1)] }
      ⟨0, 300⟩ 0 600 ⟨255, 255, 255, 255⟩ hp
    have hstate : handle_events { window_width := 0, packet_buffer := [.finite 1, .finite (-1)] }
        [] = { window_width := 0, packet_buffer := [.finite 1, .finite (-1)] } := rfl
    simp only [hstate, hdiv, hd]
  · rw [update_of_render
      { window_width := 2147483647, packet_buffer := [.finite 0, .finite 0] } []
      (by simp) rfl]
    have hp : wave_points [.finite 0, .finite 0] ⟨0, 300⟩ 2147483647 600 = .error .readPastEnd :=
      wave_points_overflow ⟨0, 300⟩ 600 (by norm_num) (by norm_num) (by norm_num) (by norm_num)
    have hd := draw_wave_of_fault
      { window_width := 2147483647, packet_buffer := [.finite 0, .finite 0] }
      ⟨0, 300⟩ 2147483647 600 ⟨255, 255, 255, 255⟩ .readPastEnd hp
    have hstate : handle_events
        { window_width := 2147483647, packet_buffer := [.finite 0, .finite 0] }
        [] = { window_width := 2147483647, packet_buffer := [.finite 0, .finite 0] } := rfl
    simp only [hstate, hdiv, hd]

/-- C11, amended: when the queue holds no quit event, the window is not
minimized once the events have been handled, and the waveform mapping of the
stored block with `x0 = 0`, `y0 = height div 2`, `W = width` and `A = height`,
for the width and height in force after the events, is defined and not empty,
`update` returns `true` and, after the calls of the dispatched events, performs
exactly: set the colour to black, clear, read the stored block under the lock,
set the colour to white, draw this mapping as one polyline, present. -/
theorem update_renders (self : Visualizer) (queue : List SDL_Event) (points : List SDL_Point)
    (hquit : SDL_Event.QUIT ∉ queue) (hmin : (handle_events self queue).mMinimized = false)
    (hpoints : wave_points self.packet_buffer
      ⟨0, Int.tdiv (handle_events self queue).window_height 2⟩
      (handle_events self queue).window_width (handle_events self queue).window_height
      = .ok points)
    (hne : points ≠ []) :
    update self queue = .ok ⟨true, handle_events self queue, [], queue,
      handle_events_calls self queue ++ [.SetRenderDrawColor 0 0 0 255, .RenderClear,
        .lockPacketBuffer, .unlockPacketBuffer, .SetRenderDrawColor 255 255 255 255,
        .RenderDrawLines points, .RenderPresent]⟩ ∧
    (0 ≤ (handle_events self queue).window_height →
      Int.tdiv (handle_events self queue).window_height 2 =
        (handle_events self queue).window_height / 2) := by
  refine ⟨?_, fun h => Int.tdiv_eq_ediv h (by norm_num)⟩
  rw [← handle_events_packet_buffer queue self] at hpoints
  rw [update_of_render self queue hquit hmin,
    draw_wave_of_points _ _ _ _ ⟨255, 255, 255, 255⟩ points hpoints hne]
  simp

theorem update_renders_witness :
    update { window_width := 2, packet_buffer := [.finite 1, .finite (-1)] } [] =
      .ok ⟨true, { window_width := 2, packet_buffer := [.finite 1, .finite (-1)] }, [], [],
        [.SetRenderDrawColor 0 0 0 255, .RenderClear,
          .lockPacketBuffer, .unlockPacketBuffer, .SetRenderDrawColor 255 255 255 255,
          .RenderDrawLines [⟨0, 300 + 600⟩, ⟨1, 300 - 600⟩], .RenderPresent]⟩ := by
  have hstep : wave_step 2 2 = 1 := wave_step_eq_of 2 2 1 (by norm_num) (by norm_num) (by norm_num)
  have hcount : ⌈((2 : Int) : ℚ) / ((1 : Int) : ℚ)⌉ = 2 :=
    ceil_div_eq_of 2 1 2 (by norm_num) (by norm_num) (by norm_num)
  have r0 : wave_row 300 (.finite 1) 600 = some 900 := by
    simpa using wave_row_exact 300 1 600 600 (by norm_num) (by norm_num) (by norm_num)
      (by norm_num) (by norm_num) (by norm_num) (by norm_num) (by norm_num) (by norm_num)
  have r1 : wave_row 300 (.finite (-1)) 600 = some (-300) := by
    simpa using wave_row_exact 300 (-1) 600 (-600) (by norm_num) (by norm_num) (by norm_num)
      (by norm_num) (by norm_num) (by norm_num) (by norm_num) (by norm_num) (by norm_num)
  have h := (wave_points_eq [.finite 1, .finite (-1)] ⟨0, 300⟩ 2 600 (by simp) (by norm_num)
    (wave_counter_in_range 2 2 (by norm_num) (by norm_num) (by norm_num))).1
    (by
      simp only [List.length_cons, List.length_nil, Nat.reduceAdd, hstep, hcount]
      intro k hk
      have hk2 : k < 2 := hk
      interval_cases k
      · rw [show [Float32.finite 1, .finite (-1)].getD 0 (.finite 0) = .finite 1 from rfl, r0]
        rfl
      · rw [show [Float32.finite 1, .finite (-1)].getD 1 (.finite 0) = .finite (-1) from rfl,
          r1]
        rfl)
  simp only [List.length_cons, List.length_nil, Nat.reduceAdd, hstep, hcount] at h
  have h2 : Int.toNat 2 = 2 := rfl
  have hr : List.range 2 = [0, 1] := rfl
  have w0 : wrap32 (0 + ((0 : Nat) : Int) * 1) = 0 := by decide
  have w1 : wrap32 (0 + ((1 : Nat) : Int) * 1) = 1 := by decide
  have hpts : wave_points [.finite 1, .finite (-1)] ⟨0, 300⟩ 2 600 =
      .ok [⟨0, 300 + 600⟩, ⟨1, 300 - 600⟩] := by
    rw [h]
    simp only [h2, hr, List.map_cons, List.map_nil, w0, w1]
    rw [show [Float32.finite 1, .finite (-1)].getD 0 (.finite 0) = .finite 1 from rfl,
      show [Float32.finite 1, .finite (-1)].getD 1 (.finite 0) = .finite (-1) from rfl, r0, r1]
    rfl
  exact (update_renders { window_width := 2, packet_buffer := [.finite 1, .finite (-1)] } []
    [⟨0, 300 + 600⟩, ⟨1, 300 - 600⟩] (by simp) rfl hpts (by simp)).1

/-- C12: initialisation failures are reported by `init_successful()`. For
every outcome of the four initialisation steps the constructor completes; the
producer thread is started exactly when SDL initialisation and the capture
initialisation both succeed, and `init_successful()` is true exactly when all
four steps succeed. A failed capture initialisation leaves the producer thread
unstarted and `init_successful()` false. -/
theorem init_successful_iff (env : InitOutcome) :
    ((construct env).recording_thread_joinable = true ↔
      (env.sdl_init = true ∧ env.recorder_init = true)) ∧
    (init_successful (construct env) = true ↔
      (env.sdl_init = true ∧ env.create_window = true ∧ env.create_renderer = true ∧
        env.recorder_init = true)) ∧
    (env.recorder_init = false →
      (construct env).recording_thread_joinable = false ∧
      init_successful (construct env) = false) := by
  obtain ⟨a, b, c, d⟩ := env
  cases a <;> cases b <;> cases c <;> cases d <;> simp [construct, init_successful]

theorem init_successful_iff_witness :
    (construct ⟨true, true, true, false⟩).recording_thread_joinable = false ∧
    init_successful (construct ⟨true, true, true, false⟩) = false :=
  (init_successful_iff ⟨true, true, true, false⟩).2.2 rfl

/-- C14: each window event changes only its own fields. Minimize sets
`mMinimized = true`; Maximize and Restore set `mMinimized = false`;
Resize `(w, h)` sets `window_width = w`, `window_height = h`; Expose and every
unrecognised event change nothing. Every other field keeps its value. Exactly
one `SDL_RenderPresent` is issued for Resize and for Expose, and none for any
other event. -/
theorem handle_event_window_events (self : Visualizer) :
    (∀ d1 d2, handle_event self (.WINDOWEVENT .MINIMIZED d1 d2) =
      ({ self with mMinimized := true }, [])) ∧
    (∀ d1 d2, handle_event self (.WINDOWEVENT .MAXIMIZED d1 d2) =
      ({ self with mMinimized := false }, [])) ∧
    (∀ d1 d2, handle_event self (.WINDOWEVENT .RESTORED d1 d2) =
      ({ self with mMinimized := false }, [])) ∧
    (∀ w h, handle_event self (.WINDOWEVENT .SIZE_CHANGED w h) =
      ({ self with window_width := w, window_height := h }, [.RenderPresent])) ∧
    (∀ d1 d2, handle_event self (.WINDOWEVENT .EXPOSED d1 d2) = (self, [.RenderPresent])) ∧
    (∀ id d1 d2, handle_event self (.WINDOWEVENT (.OTHER id) d1 d2) = (self, [])) ∧
    (∀ sym, handle_event self (.KEYDOWN (.OTHER sym)) = (self, [])) ∧
    (∀ type, handle_event self (.OTHER type) = (self, [])) ∧
    handle_event self .QUIT = (self, []) ∧
    (∀ e, (handle_event self e).2.count .RenderPresent =
      match e with
      | .WINDOWEVENT .SIZE_CHANGED _ _ => 1
      | .WINDOWEVENT .EXPOSED _ _ => 1
      | _ => 0) := by
  refine ⟨fun _ _ => rfl, fun _ _ => rfl, fun _ _ => rfl, fun _ _ => rfl, fun _ _ => rfl,
    fun _ _ _ => rfl, fun _ => rfl, fun _ => rfl, rfl, ?_⟩
  intro e
  cases e with
  | QUIT => rfl
  | OTHER t => rfl
  | KEYDOWN sym =>
    cases sym with
    | RETURN => cases h : self.mFullScreen <;> simp [handle_event, h]
    | OTHER k => rfl
  | WINDOWEVENT event d1 d2 => cases event <;> simp [handle_event]

/-- C15: for `N ≥ 1` samples and a width `W ≥ 1` the step of `draw_wave` is the
least positive integer `s` with `s * N ≥ W`: it is at least 1,
`(step - 1) * N < W ≤ step * N`, and every `s` with `s * N ≥ W` is at least
`step`. -/
theorem wave_step_least (length : Int) (size : Nat) (hN : 1 ≤ size) (hW : 1 ≤ length) :
    1 ≤ wave_step length size ∧
    (wave_step length size - 1) * size < length ∧
    length ≤ wave_step length size * size ∧
    ∀ s : Int, length ≤ s * size → wave_step length size ≤ s := by
  have hs' : (0 : Int) < (size : Int) := by omega
  refine ⟨wave_step_pos length size hW hN, ?_, wave_step_mul_ge length size hN, ?_⟩
  · have h := (lt_ceil_div_iff length size (wave_step length size - 1) hs').mp
      (by rw [← wave_step_eq]; omega)
    exact h
  · intro s hs
    rw [wave_step_eq]
    exact (ceil_div_le_iff length size s hs').mpr hs

theorem wave_step_least_witness : wave_step 1000 600 = 2 := by
  obtain ⟨-, h1, h2, -⟩ := wave_step_least 1000 600 (by norm_num) (by norm_num)
  omega

/-- C16, as the code has it, at concrete inputs. With the baseline 0, the
amplitude `A = 16777219` and the sample `1.0`, the row is `16777220`, so
`|y - y0| = A + 1`: the conversion of `A` to `float` rounds it to `16777220`.
With the baseline `y0 = 16777217`, the amplitude 0 and the sample `0.0`, the
row is `16777216`, so `|y - y0| = 1 > A`: the conversion of `y0` to `float`
rounds it to `16777216`. -/
theorem draw_wave_amplitude_exceeded :
    (wave_row 0 (.finite 1) 16777219 = some 16777220 ∧
      ¬ (|(16777220 : Int) - 0| ≤ 16777219)) ∧
    (wave_row 16777217 (.finite 0) 0 = some 16777216 ∧
      ¬ (|(16777216 : Int) - 16777217| ≤ 0)) := by
  refine ⟨⟨wave_row_large_amplitude, ?_⟩, ⟨wave_row_large_baseline, ?_⟩⟩
  · norm_num
  · norm_num

/-- C16, amended: `pixel_amplitude` bounds the drawn wave when the baseline and
the amplitude are small enough for `float` to hold `y0 - A` and `y0 + A`
exactly. For every baseline `y0` and every `A ≥ 0` with
`-2 ^ 24 < y0 - A` and `y0 + A < 2 ^ 24`, and every sample `s` with
`-1 ≤ s ≤ 1`, the row `y = (int)(y0 + s * A)` is defined and satisfies
`|y - y0| ≤ A`; so every point `draw_wave` emits for a block of such samples
is within `A` rows of the baseline. -/
theorem draw_wave_amplitude_bound (start : SDL_Point) (pixel_amplitude : Int)
    (hA : 0 ≤ pixel_amplitude) (hlow : -16777216 < start.y - pixel_amplitude)
    (hhigh : start.y + pixel_amplitude < 16777216) :
    (∀ s : ℚ, -1 ≤ s → s ≤ 1 →
      ∃ row, wave_row start.y (.finite s) pixel_amplitude = some row ∧
        |row - start.y| ≤ pixel_amplitude) ∧
    (∀ (buf : List Sample) (length : Int) (points : List SDL_Point),
      (∀ sample ∈ buf, ∃ s : ℚ, sample = .finite s ∧ -1 ≤ s ∧ s ≤ 1) →
      wave_points buf start length pixel_amplitude = .ok points →
      ∀ p ∈ points, |p.y - start.y| ≤ pixel_amplitude) := by
  refine ⟨fun s h1 h2 => wave_row_amplitude start.y s pixel_amplitude hA hlow hhigh h1 h2, ?_⟩
  intro buf length points hbuf hpoints
  apply wave_points_rows (fun y => |y - start.y| ≤ pixel_amplitude) buf start length
    pixel_amplitude (by simpa using hA) ?_ points hpoints
  intro sample hmem y hy
  obtain ⟨s, rfl, h1, h2⟩ := hbuf sample hmem
  obtain ⟨row, hrow, hbound⟩ :=
    wave_row_amplitude start.y s pixel_amplitude hA hlow hhigh h1 h2
  rw [hrow] at hy
  cases hy
  exact hbound

theorem draw_wave_amplitude_bound_witness :
    ∃ row, wave_row 300 (.finite (11744051 / 16777216)) 600 = some row ∧ |row - 300| ≤ 600 :=
  (draw_wave_amplitude_bound ⟨0, 300⟩ 600 (by norm_num) (by norm_num) (by norm_num)).1
    (11744051 / 16777216) (by norm_num) (by norm_num)

/-- C17, as the code has it, at concrete inputs. A block of two samples drawn
from `(INT_MAX, 0)` over the width 2, so `N ≥ W`, has its two points at the
columns `2147483647` and `-2147483648`, not at the consecutive columns `x0` and
`x0 + 1`. Two blocks of the same length `71585` that agree on their first
`⌈W / step⌉ = 71583` samples, drawn over the width `W = INT_MAX` with the step
`30000`, give different results: the loop counter overflows after `71583`
iterations and the loop reads the sample at index `71583`, on which the blocks
differ. -/
theorem draw_wave_columns_overflow :
    (wave_points [.finite 0, .finite 0] ⟨2147483647, 0⟩ 2 0 =
        .ok [⟨2147483647, 0⟩, ⟨-2147483648, 0⟩] ∧
      (-2147483648 : Int) ≠ 2147483647 + 1) ∧
    ((List.replicate 71583 (Float32.finite 0) ++ [Float32.nan, Float32.finite 0]).length = 71585 ∧
      (List.replicate 71583 (Float32.finite 0) ++ [Float32.finite 0, Float32.finite 0]).length
        = 71585 ∧
      wave_step 2147483647 71585 = 30000 ∧
      ⌈((2147483647 : Int) : ℚ) / ((30000 : Int) : ℚ)⌉ = 71583 ∧
      (∀ k : Nat, k < 71583 →
        (List.replicate 71583 (Float32.finite 0) ++ [Float32.nan, Float32.finite 0])[k]? =
          (List.replicate 71583 (Float32.finite 0) ++ [Float32.finite 0, Float32.finite 0])[k]?) ∧
      wave_points (List.replicate 71583 (Float32.finite 0) ++ [Float32.nan, Float32.finite 0])
        ⟨0, 0⟩ 2147483647 0 = .error .castUndefined ∧
      wave_points (List.replicate 71583 (Float32.finite 0) ++ [Float32.finite 0, Float32.finite 0])
        ⟨0, 0⟩ 2147483647 0 = .error .readPastEnd) := by
  refine ⟨⟨wave_points_column_wrap, by norm_num⟩, ?_, ?_,
    wave_step_eq_of 2147483647 71585 30000 (by norm_num) (by norm_num) (by norm_num),
    ceil_div_eq_of 2147483647 30000 71583 (by norm_num) (by norm_num) (by norm_num), ?_,
    wave_points_long_block_nan, wave_points_long_block_zero⟩
  · rw [List.length_append, List.length_replicate]
    rfl
  · rw [List.length_append, List.length_replicate]
    rfl
  · intro k hk
    rw [List.getElem?_append_left (by rw [List.length_replicate]; exact hk),
      List.getElem?_append_left (by rw [List.length_replicate]; exact hk)]

/-- C17, amended: the drawn trace depends only on a front part of the stored
block when no `int` overflows. For `N ≥ 1`, `W ≥ 1` and a loop counter that
does not overflow (`⌈W / step⌉ * step ≤ INT_MAX`), two blocks of the same
length `N` that agree on their first `⌈W / step⌉` samples give the same
result. When `N ≥ W` the step is 1, every block of length at least `W` that
agrees with the block on the first `W` samples gives the same result, and when
the rows `rows k = (int)(y0 + sample[k] * A)` of the first `W` samples are
defined and the columns `x0 .. x0 + W - 1` are `int`s, the points are
`(x0 + k, rows k)` for `k = 0, …, W - 1`. -/
theorem draw_wave_front_only (buf : List Sample) (start : SDL_Point)
    (length pixel_amplitude : Int) (hN : 1 ≤ buf.length) (hW : 1 ≤ length)
    (hmax : ⌈(length : ℚ) / (wave_step length buf.length : ℚ)⌉ * wave_step length buf.length
      ≤ 2147483647) :
    (∀ other : List Sample, other.length = buf.length →
      (∀ k : Nat, (k : Int) < ⌈(length : ℚ) / (wave_step length buf.length : ℚ)⌉ →
        other[k]? = buf[k]?) →
      wave_points other start length pixel_amplitude =
        wave_points buf start length pixel_amplitude) ∧
    (length ≤ buf.length →
      wave_step length buf.length = 1 ∧
      (∀ other : List Sample, length ≤ other.length →
        (∀ k : Nat, (k : Int) < length → other[k]? = buf[k]?) →
        wave_points other start length pixel_amplitude =
          wave_points buf start length pixel_amplitude) ∧
      (∀ rows : Nat → Int,
        (∀ k : Nat, (k : Int) < length →
          wave_row start.y (buf.getD k (.finite 0)) pixel_amplitude = some (rows k)) →
        -2147483648 ≤ start.x → start.x + length - 1 ≤ 2147483647 →
        wave_points buf start length pixel_amplitude =
          .ok ((List.range length.toNat).map fun (k : Nat) =>
            ⟨start.x + (k : Int), rows k⟩))) := by
  -- blocks that agree below the number of iterations give the same result
  have hsame : ∀ (b1 b2 : List Sample) (hb1 : 1 ≤ b1.length) (hb2 : 1 ≤ b2.length),
      wave_step length b1.length = wave_step length b2.length →
      ⌈(length : ℚ) / (wave_step length b2.length : ℚ)⌉ * wave_step length b2.length
        ≤ 2147483647 →
      (∀ k : Nat, (k : Int) < ⌈(length : ℚ) / (wave_step length b2.length : ℚ)⌉ →
        b1[k]? = b2[k]?) →
      wave_points b1 start length pixel_amplitude =
        wave_points b2 start length pixel_amplitude := by
    intro b1 b2 hb1 hb2 hstep hm hagree
    have hm1 : ⌈(length : ℚ) / (wave_step length b1.length : ℚ)⌉ * wave_step length b1.length
        ≤ 2147483647 := by rw [hstep]; exact hm
    obtain ⟨hok1, hf1⟩ := wave_points_eq b1 start length pixel_amplitude hb1 hW hm1
    obtain ⟨hok2, hf2⟩ := wave_points_eq b2 start length pixel_amplitude hb2 hW hm
    rw [hstep] at hok1 hf1
    have hget : ∀ k : Nat, k < ⌈(length : ℚ) / (wave_step length b2.length : ℚ)⌉.toNat →
        b1.getD k (.finite 0) = b2.getD k (.finite 0) := by
      intro k hk
      rw [List.getD_eq_getElem?_getD, List.getD_eq_getElem?_getD, hagree k (by omega)]
    have hiff : (∀ k : Nat, k < ⌈(length : ℚ) / (wave_step length b2.length : ℚ)⌉.toNat →
          (wave_row start.y (b1.getD k (.finite 0)) pixel_amplitude).isSome = true) ↔
        (∀ k : Nat, k < ⌈(length : ℚ) / (wave_step length b2.length : ℚ)⌉.toNat →
          (wave_row start.y (b2.getD k (.finite 0)) pixel_amplitude).isSome = true) := by
      constructor
      · intro h k hk
        rw [← hget k hk]; exact h k hk
      · intro h k hk
        rw [hget k hk]; exact h k hk
    by_cases h : ∀ k : Nat, k < ⌈(length : ℚ) / (wave_step length b2.length : ℚ)⌉.toNat →
        (wave_row start.y (b2.getD k (.finite 0)) pixel_amplitude).isSome = true
    · rw [hok1 (hiff.mpr h), hok2 h]
      congr 1
      apply List.map_congr_left
      intro k hk
      rw [hget k (List.mem_range.mp hk)]
    · rw [hf1 (fun h1 => h (hiff.mp h1)), hf2 h]
  have hstep1 : ∀ b : List Sample, length ≤ b.length → wave_step length b.length = 1 := by
    intro b hb
    exact wave_step_eq_of length b.length 1 (by omega) (by omega) (by omega)
  have hcount1 : ⌈(length : ℚ) / ((1 : Int) : ℚ)⌉ = length :=
    ceil_div_eq_of length 1 length (by norm_num) (by omega) (by omega)
  refine ⟨fun other hlen hagree => hsame other buf (by omega) hN (by rw [hlen]) hmax hagree, ?_⟩
  intro hle
  have hs1 := hstep1 buf hle
  refine ⟨hs1, ?_, ?_⟩
  · intro other hole hagree
    refine hsame other buf (by omega) hN (by rw [hstep1 other hole, hs1]) hmax ?_
    intro k hk
    rw [hs1, hcount1] at hk
    exact hagree k hk
  · intro rows hrows hx1 hx2
    obtain ⟨hok, -⟩ := wave_points_eq buf start length pixel_amplitude hN hW hmax
    rw [hs1, hcount1] at hok
    rw [hok (by intro k hk; rw [hrows k (by omega)]; rfl)]
    congr 1
    apply List.map_congr_left
    intro k hk
    have hk' := List.mem_range.mp hk
    rw [hrows k (by omega), wrap32_of_range _ (by omega) (by omega)]
    simp

theorem draw_wave_front_only_witness :
    wave_points [.finite 0, .finite 0, .finite (1 / 2), .nan] ⟨0, 300⟩ 2 600 =
      wave_points [.finite 0, .finite 0, .finite 0, .finite 0, .finite 0] ⟨0, 300⟩ 2 600 := by
  refine ((draw_wave_front_only [.finite 0, .finite 0, .finite 0, .finite 0, .finite 0]
    ⟨0, 300⟩ 2 600 (by simp) (by norm_num)
    (wave_counter_in_range 2 5 (by norm_num) (by norm_num) (by norm_num))).2
    (by simp)).2.1 [.finite 0, .finite 0, .finite (1 / 2), .nan] (by simp) ?_
  intro k hk
  have hk2 : k < 2 := by omega
  interval_cases k <;> rfl

/-- C18, as the code has it, at a concrete input: two samples drawn over the
width `INT_MAX = 2147483647`. The step is `2 ^ 30`; after the second point the
counter `i` overflows to `-2147483648`, so `i ≥ W` is not reached: for no
iteration budget does the loop end with its points. -/
theorem wave_loop_counter_overflow :
    wave_step 2147483647 2 = 1073741824 ∧
    ∀ (fuel : Nat) (points : List SDL_Point),
      wave_loop ⟨0, 0⟩ 2147483647 0 (wave_step 2147483647 2) [.finite 0, .finite 0] fuel 0 0 []
        ≠ .ok points := by
  refine ⟨wave_step_overflow, ?_⟩
  intro fuel points
  rw [wave_step_overflow]
  have hrow : wave_row 0 (.finite 0) 0 = some 0 :=
    wave_row_zero 0 0 (by norm_num) (by norm_num) (by norm_num) (by norm_num)
  have w1 : wrap32 (0 + 1073741824) = 1073741824 := by decide
  have w2 : wrap32 (1073741824 + 1073741824) = -2147483648 := by decide
  rcases fuel with _ | _ | _ | fuel
  · rw [wave_loop_out_of_fuel _ _ _ _ _ _ _ _ (by norm_num)]
    exact fun h => by cases h
  · rw [wave_loop_step _ _ _ _ _ _ _ _ _ (.finite 0) 0 (by norm_num) rfl hrow, w1,
      wave_loop_out_of_fuel _ _ _ _ _ _ _ _ (by norm_num)]
    exact fun h => by cases h
  · rw [wave_loop_step _ _ _ _ _ _ _ _ _ (.finite 0) 0 (by norm_num) rfl hrow, w1,
      wave_loop_step _ _ _ _ _ _ _ _ _ (.finite 0) 0 (by norm_num) rfl hrow, w2,
      wave_loop_out_of_fuel _ _ _ _ _ _ _ _ (by norm_num)]
    exact fun h => by cases h
  · rw [wave_loop_overflow ⟨0, 0⟩ 0 fuel (by norm_num) (by norm_num) (by norm_num)
      (by norm_num)]
    exact fun h => by cases h

/-- C18, amended: the point loop of `draw_wave` terminates for every block of
`N ≥ 1` samples and every width `W` for which the loop counter does not
overflow. When `W ≥ 1` the step is at least 1, and when moreover
`⌈W / step⌉ * step ≤ INT_MAX` (as for every `W ≤ 2 ^ 30`) the loop ends after
at most `⌈W / step⌉ ≤ W` iterations: every budget of at least that many
iterations gives the result of `draw_wave`, which is the `⌈W / step⌉` points
when the row of each is defined and the cast fault otherwise. When `W ≤ 0` the
step is at most 0, the loop body is not entered, and the point list is empty
for every budget. -/
theorem wave_loop_terminates (buf : List Sample) (start : SDL_Point)
    (length pixel_amplitude : Int) (hN : 1 ≤ buf.length) :
    (1 ≤ length → 1 ≤ wave_step length buf.length) ∧
    (length ≤ 0 → wave_step length buf.length ≤ 0 ∧
      (∀ fuel, wave_loop start length pixel_amplitude (wave_step length buf.length) buf
        fuel 0 0 [] = .ok []) ∧
      wave_points buf start length pixel_amplitude = .ok []) ∧
    (1 ≤ length → length ≤ 1073741824 →
      ⌈(length : ℚ) / (wave_step length buf.length : ℚ)⌉ * wave_step length buf.length
        ≤ 2147483647) ∧
    (1 ≤ length →
      ⌈(length : ℚ) / (wave_step length buf.length : ℚ)⌉ * wave_step length buf.length
        ≤ 2147483647 →
      ⌈(length : ℚ) / (wave_step length buf.length : ℚ)⌉.toNat ≤ length.toNat ∧
      (∀ fuel, ⌈(length : ℚ) / (wave_step length buf.length : ℚ)⌉.toNat ≤ fuel →
        wave_loop start length pixel_amplitude (wave_step length buf.length) buf fuel 0 0 []
          = wave_points buf start length pixel_amplitude) ∧
      ((∃ points, wave_points buf start length pixel_amplitude = .ok points ∧
          points.length = ⌈(length : ℚ) / (wave_step length buf.length : ℚ)⌉.toNat) ∨
        wave_points buf start length pixel_amplitude = .error .castUndefined) ∧
      ((∀ k : Nat, k < ⌈(length : ℚ) / (wave_step length buf.length : ℚ)⌉.toNat →
          (wave_row start.y (buf.getD k (.finite 0)) pixel_amplitude).isSome = true) →
        ∃ points, wave_points buf start length pixel_amplitude = .ok points ∧
          points.length = ⌈(length : ℚ) / (wave_step length buf.length : ℚ)⌉.toNat)) := by
  refine ⟨fun hW => wave_step_pos length buf.length hW hN, ?_,
    fun hW hmax => wave_counter_in_range length buf.length hN hW hmax, ?_⟩
  · intro hle
    refine ⟨?_, fun fuel => wave_loop_done _ _ _ _ _ _ _ _ _ hle,
      wave_points_nonpos buf start length pixel_amplitude hN hle⟩
    rw [wave_step_eq]
    exact (ceil_div_le_iff length buf.length 0 (by omega)).mpr (by omega)
  · intro hW hmax
    obtain ⟨hcW, -, -, hloop⟩ :=
      wave_loop_from_start buf start length pixel_amplitude hN hW hmax
    obtain ⟨hok, hfault⟩ := wave_points_eq buf start length pixel_amplitude hN hW hmax
    have hgood : (∀ k : Nat, k < ⌈(length : ℚ) / (wave_step length buf.length : ℚ)⌉.toNat →
          (wave_row start.y (buf.getD k (.finite 0)) pixel_amplitude).isSome = true) →
        ∃ points, wave_points buf start length pixel_amplitude = .ok points ∧
          points.length = ⌈(length : ℚ) / (wave_step length buf.length : ℚ)⌉.toNat :=
      fun h => ⟨_, hok h, by simp⟩
    refine ⟨hcW, ?_, ?_, hgood⟩
    · intro fuel hf
      by_cases h : ∀ k : Nat, k < ⌈(length : ℚ) / (wave_step length buf.length : ℚ)⌉.toNat →
          (wave_row start.y (buf.getD k (.finite 0)) pixel_amplitude).isSome = true
      · rw [(hloop fuel hf).1 h, hok h]
      · rw [(hloop fuel hf).2 h, hfault h]
    · by_cases h : ∀ k : Nat, k < ⌈(length : ℚ) / (wave_step length buf.length : ℚ)⌉.toNat →
          (wave_row start.y (buf.getD k (.finite 0)) pixel_amplitude).isSome = true
      · exact Or.inl (hgood h)
      · exact Or.inr (hfault h)

theorem wave_loop_terminates_witness :
    ∃ points, wave_points [.finite 0, .finite 0, .finite 0] ⟨0, 300⟩ 1000 600 = .ok points ∧
      (∀ fuel, points.length ≤ fuel →
        wave_loop ⟨0, 300⟩ 1000 600 (wave_step 1000 3) [.finite 0, .finite 0, .finite 0] fuel
          0 0 [] = .ok points) ∧
      wave_points [.finite 0, .finite 0, .finite 0] ⟨0, 300⟩ (-5) 600 = .ok [] := by
  have hrow : wave_row 300 (.finite 0) 600 = some 300 :=
    wave_row_zero 300 600 (by norm_num) (by norm_num) (by norm_num) (by norm_num)
  obtain ⟨-, hneg, hrange, hpos⟩ :=
    wave_loop_terminates [.finite 0, .finite 0, .finite 0] ⟨0, 300⟩ 1000 600 (by simp)
  obtain ⟨-, hneg2, -, -⟩ :=
    wave_loop_terminates [.finite 0, .finite 0, .finite 0] ⟨0, 300⟩ (-5) 600 (by simp)
  obtain ⟨-, hfuel, -, hgood⟩ := hpos (by norm_num) (hrange (by norm_num) (by norm_num))
  obtain ⟨points, hp, hlen⟩ := hgood (by
    intro k _
    have hz : [Float32.finite 0, .finite 0, .finite 0].getD k (.finite 0) = .finite 0 := by
      rcases k with _ | _ | _ | k <;> rfl
    simp only [hz, hrow]
    rfl)
  refine ⟨points, hp, ?_, (hneg2 (by norm_num)).2.2⟩
  intro fuel hf
  rw [← hp]
  exact hfuel fuel (by rw [← hlen]; exact hf)

/-- C19, as the code has it, at concrete inputs. At the default height 600,
with the baseline `600 div 2 = 300` and the amplitude 600, the `float` sample
`16777215 / 33554432`, which is below `1/2`, is drawn at the row 600, one row
below the last row `height - 1 = 599` of the window. At the height `16777219`,
which `float` rounds to `16777220`, the sample `-1/2` is drawn at the row `-1`,
above the window. -/
theorem draw_wave_row_below_window :
    (wave_row (Int.tdiv 600 2) (.finite (16777215 / 33554432)) 600 = some 600 ∧
      (-1 / 2 : ℚ) ≤ 16777215 / 33554432 ∧ (16777215 / 33554432 : ℚ) < 1 / 2 ∧
      ¬ ((600 : Int) ≤ 600 - 1)) ∧
    (wave_row (Int.tdiv 16777219 2) (.finite (-1 / 2)) 16777219 = some (-1) ∧
      ¬ ((0 : Int) ≤ -1)) := by
  have hdiv : Int.tdiv 600 2 = 300 := by decide
  rw [hdiv]
  exact ⟨⟨wave_row_below_half, by norm_num, by norm_num, by norm_num⟩,
    ⟨wave_row_large_height, by norm_num⟩⟩

/-- C19, amended: with the arguments `update` passes, baseline `height div 2`
and amplitude `height`, for every height with `1 ≤ height < 2 ^ 24` and every
sample `s` with `-1/2 ≤ s < 1/2` the row `y = (int)(y0 + s * height)` is
defined and satisfies `0 ≤ y ≤ height`; so every point `draw_wave` emits for a
block of such samples has its row between `0` and `height`. -/
theorem draw_wave_rows_in_window (height : Int) (hh1 : 1 ≤ height) (hh2 : height < 16777216) :
    (∀ s : ℚ, -1 / 2 ≤ s → s < 1 / 2 →
      ∃ row, wave_row (Int.tdiv height 2) (.finite s) height = some row ∧
        0 ≤ row ∧ row ≤ height) ∧
    (∀ (buf : List Sample) (x0 length : Int) (points : List SDL_Point),
      (∀ sample ∈ buf, ∃ s : ℚ, sample = .finite s ∧ -1 / 2 ≤ s ∧ s < 1 / 2) →
      wave_points buf ⟨x0, Int.tdiv height 2⟩ length height = .ok points →
      ∀ p ∈ points, 0 ≤ p.y ∧ p.y ≤ height) := by
  refine ⟨fun s h1 h2 => wave_row_window height s hh1 hh2 h1 h2, ?_⟩
  intro buf x0 length points hbuf hpoints
  have hdiv : Int.tdiv height 2 = height / 2 := Int.tdiv_eq_ediv (by omega) (by norm_num)
  apply wave_points_rows (fun y => 0 ≤ y ∧ y ≤ height) buf ⟨x0, Int.tdiv height 2⟩ length
    height (by constructor <;> simp only <;> omega) ?_ points hpoints
  intro sample hmem y hy
  obtain ⟨s, rfl, h1, h2⟩ := hbuf sample hmem
  obtain ⟨row, hrow, hbound⟩ := wave_row_window height s hh1 hh2 h1 h2
  simp only at hy
  rw [hrow] at hy
  cases hy
  exact hbound

theorem draw_wave_rows_in_window_witness :
    ∃ row, wave_row (Int.tdiv 601 2) (.finite (-1 / 2)) 601 = some row ∧
      0 ≤ row ∧ row ≤ 601 :=
  (draw_wave_rows_in_window 601 (by norm_num) (by norm_num)).1 (-1 / 2) (by norm_num)
    (by norm_num)

end AudioVisualizer
